import Mathlib

/-!
# Employee management service: store access layer and request handlers

A shallow embedding of `sharedpackage/model.go`, `firestore/firestore.go` and
`employee/handler.go`, and the properties proved of it.

The document store is an external collaborator reached through its client
library.  It is modelled as explicit state: the `employees` collection is the
list of its documents in the order in which a query cursor yields them.  What
the store does with a call is written down once, in the section "The document
store", from the behaviour of the client library: equality filters on a field
path, a cursor that yields the matches in collection order, insert under a
generated identifier, `Set` with `MergeAll` (the update mask lists the leaves
of the map), and delete by document reference.  The functions of the source
follow in the sections named after their files, statement by statement: a
loop over a cursor is a recursion over the list of documents the cursor
yields, a returned `error` is an `Option Error` or an `Except`, and a function
that writes returns the collection afterwards next to its result.

Scope of the store model.  Every call is answered: transport failures and the
limits the server enforces on a write (field-name syntax, document size,
arrays directly inside arrays) are not modelled.  Values are the kinds a JSON
body and the `Employee` struct can produce.  The hashing library is a
parameter of the handlers; `bcrypt.GenerateFromPassword` gives the shape the
library has, over the digest it computes.
-/

namespace EmployeeMgmt

/-! ## Values -/

/-- An IEEE-754 binary64 number, given by its 64 bits.  Go `float64` and the
store's double values are carried around bit for bit. -/
structure Float64 where
  bits : Nat
deriving DecidableEq, Repr

namespace Float64

/-- Sign bit. -/
def sign (d : Float64) : Bool := d.bits / 2 ^ 63 % 2 = 1

/-- Biased exponent field (11 bits). -/
def expo (d : Float64) : Nat := d.bits / 2 ^ 52 % 2 ^ 11

/-- Fraction field (52 bits). -/
def frac (d : Float64) : Nat := d.bits % 2 ^ 52

/-- Neither an infinity nor a NaN. -/
def isFinite (d : Float64) : Bool := d.expo != 2047

/-- The integer a double denotes, when it is finite and has no fractional
part (`-0.0` denotes `0`). -/
def toInt? (d : Float64) : Option Int :=
  if d.expo = 2047 then none
  else if d.expo = 0 then (if d.frac = 0 then some 0 else none)
  else
    let sig := 2 ^ 52 + d.frac
    let mag : Option Nat :=
      if 1075 ≤ d.expo then some (sig * 2 ^ (d.expo - 1075))
      else if sig % 2 ^ (1075 - d.expo) = 0 then some (sig / 2 ^ (1075 - d.expo))
      else none
    mag.map (fun n => if d.sign then -(n : Int) else (n : Int))

/-- The position of the highest set bit of `n`, for `n < 2 ^ fuel`. -/
def ilog2 : (fuel : Nat) → Nat → Nat
  | 0, _ => 0
  | fuel + 1, n => if n < 2 then 0 else ilog2 fuel (n / 2) + 1

/-- The double that is exactly the integer `i`, when there is one
(`float64(i)` followed by the check `int64(f) == i`). -/
def ofInt? (i : Int) : Option Float64 :=
  if i = 0 then some ⟨0⟩
  else
    let n := i.natAbs
    let e := ilog2 64 n
    let s := if i < 0 then 2 ^ 63 else 0
    if e ≤ 52 then some ⟨s + (e + 1023) * 2 ^ 52 + (n * 2 ^ (52 - e) - 2 ^ 52)⟩
    else if n % 2 ^ (e - 52) = 0 then
      some ⟨s + (e + 1023) * 2 ^ 52 + (n / 2 ^ (e - 52) - 2 ^ 52)⟩
    else none

end Float64

/-- A field value of a stored document, and equally a value of a decoded JSON
body (`interface{}`): JSON numbers decode to `double`, JSON objects to `map`,
JSON arrays to `array`.  `int` is what the store holds for a Go `int`. -/
inductive Value where
  | null
  | bool (b : Bool)
  | int (i : Int)
  | double (d : Float64)
  | str (s : String)
  | array (xs : List Value)
  | map (fs : List (String × Value))
deriving Repr

/-- A map from field names to values (`map[string]interface{}`, and the data
of a document), as an association list; the first entry of a key is its
value. -/
abbrev Fields := List (String × Value)

mutual
/-- Structural equality test on values. -/
def Value.beq : Value → Value → Bool
  | .null, .null => true
  | .bool a, .bool b => a == b
  | .int a, .int b => a == b
  | .double a, .double b => a == b
  | .str a, .str b => a == b
  | .array xs, .array ys => Value.beqList xs ys
  | .map fs, .map gs => Value.beqFields fs gs
  | _, _ => false
/-- Structural equality test on lists of values. -/
def Value.beqList : List Value → List Value → Bool
  | [], [] => true
  | x :: xs, y :: ys => Value.beq x y && Value.beqList xs ys
  | _, _ => false
/-- Structural equality test on field maps. -/
def Value.beqFields : List (String × Value) → List (String × Value) → Bool
  | [], [] => true
  | (k, x) :: xs, (l, y) :: ys => k == l && Value.beq x y && Value.beqFields xs ys
  | _, _ => false
end

mutual
theorem Value.beq_refl : ∀ a : Value, Value.beq a a = true
  | .null => by simp [Value.beq]
  | .bool _ => by simp [Value.beq]
  | .int _ => by simp [Value.beq]
  | .double _ => by simp [Value.beq]
  | .str _ => by simp [Value.beq]
  | .array xs => by simp [Value.beq, Value.beqList_refl xs]
  | .map fs => by simp [Value.beq, Value.beqFields_refl fs]
theorem Value.beqList_refl : ∀ xs : List Value, Value.beqList xs xs = true
  | [] => by simp [Value.beqList]
  | x :: xs => by simp [Value.beqList, Value.beq_refl x, Value.beqList_refl xs]
theorem Value.beqFields_refl : ∀ fs : List (String × Value), Value.beqFields fs fs = true
  | [] => by simp [Value.beqFields]
  | (_, x) :: xs => by simp [Value.beqFields, Value.beq_refl x, Value.beqFields_refl xs]
end

mutual
theorem Value.eq_of_beq : ∀ a b : Value, Value.beq a b = true → a = b
  | .null, b => by cases b <;> simp [Value.beq]
  | .bool _, b => by cases b <;> simp [Value.beq]
  | .int _, b => by cases b <;> simp [Value.beq]
  | .double _, b => by cases b <;> simp [Value.beq]
  | .str _, b => by cases b <;> simp [Value.beq]
  | .array xs, b => by
      cases b <;> simp [Value.beq]
      exact Value.eq_of_beqList xs _
  | .map fs, b => by
      cases b <;> simp [Value.beq]
      exact Value.eq_of_beqFields fs _
theorem Value.eq_of_beqList : ∀ xs ys : List Value, Value.beqList xs ys = true → xs = ys
  | [], ys => by cases ys <;> simp [Value.beqList]
  | x :: xs, ys => by
      cases ys with
      | nil => simp [Value.beqList]
      | cons y ys =>
        simp only [Value.beqList, Bool.and_eq_true, List.cons.injEq]
        exact fun h => ⟨Value.eq_of_beq x y h.1, Value.eq_of_beqList xs ys h.2⟩
theorem Value.eq_of_beqFields :
    ∀ fs gs : List (String × Value), Value.beqFields fs gs = true → fs = gs
  | [], gs => by cases gs <;> simp [Value.beqFields]
  | (k, x) :: xs, gs => by
      cases gs with
      | nil => simp [Value.beqFields]
      | cons g gs =>
        obtain ⟨l, y⟩ := g
        simp only [Value.beqFields, Bool.and_eq_true, beq_iff_eq, List.cons.injEq,
          Prod.mk.injEq]
        exact fun h => ⟨⟨h.1.1, Value.eq_of_beq x y h.1.2⟩, Value.eq_of_beqFields xs gs h.2⟩
end

instance : DecidableEq Value := fun a b =>
  if h : Value.beq a b = true then isTrue (Value.eq_of_beq a b h)
  else isFalse (fun e => h (e ▸ Value.beq_refl a))

/-! ## Errors -/

/-- The errors the store access layer returns. -/
inductive Error where
  /-- Built by `fmt.Errorf("Employee with ID %d already exists", id)` -/
  | alreadyExists (id : Int)
  /-- Built by `fmt.Errorf("ERROR: Document not found for ID: %d", id)` -/
  | notFound (id : Int)
  /-- Built by `errors.New("No document found with given ID")` -/
  | noDocument
  /-- The error of `doc.DataTo`: a stored value does not fit the struct field. -/
  | conversion
  /-- An error handed back by the store client. -/
  | store
deriving DecidableEq, Repr

instance instDecidableEqExcept {ε α : Type} [DecidableEq ε] [DecidableEq α] :
    DecidableEq (Except ε α)
  | .ok a, .ok b =>
    if h : a = b then isTrue (congrArg Except.ok h)
    else isFalse (fun e => h (Except.ok.inj e))
  | .error a, .error b =>
    if h : a = b then isTrue (congrArg Except.error h)
    else isFalse (fun e => h (Except.error.inj e))
  | .ok _, .error _ => isFalse (fun e => Except.noConfusion e)
  | .error _, .ok _ => isFalse (fun e => Except.noConfusion e)

/-! ## The document store -/

/-- A document: the identifier the store generated for it (`doc.Ref.ID`) and
its fields. -/
structure Doc where
  ref : String
  data : Fields
deriving DecidableEq, Repr

/-- The `employees` collection: its documents in the order in which a cursor
over the collection yields them. -/
abbrev Store := List Doc

/-- The value of a top-level field. -/
def getField (k : String) : Fields → Option Value
  | [] => none
  | (l, v) :: rest => if l = k then some v else getField k rest

/-- Write a top-level field: overwrite it where it stands, or add it. -/
def setField (k : String) (v : Value) : Fields → Fields
  | [] => [(k, v)]
  | (l, w) :: rest => if l = k then (k, v) :: rest else (l, w) :: setField k v rest

/-- The value at a field path (`a.b` is field `b` of the map in field `a`). -/
def getAtPath : List String → Fields → Option Value
  | [], _ => none
  | [k], fs => getField k fs
  | k :: p, fs =>
    match getField k fs with
    | some (.map m) => getAtPath p m
    | _ => none

/-- Write the value at a field path, the way the store applies one path of an
update mask: the maps on the way are kept and only the addressed leaf is
written; a value on the way that is not a map is replaced by a map. -/
def setAtPath : List String → Value → Fields → Fields
  | [], _, fs => fs
  | [k], v, fs => setField k v fs
  | k :: p, v, fs =>
    match getField k fs with
    | some (.map m) => setField k (.map (setAtPath p v m)) fs
    | _ => setField k (.map (setAtPath p v [])) fs

/-- Call `strings.Split(s, ".")`, on the characters of `s`. -/
def splitDots : List Char → List (List Char)
  | [] => [[]]
  | c :: cs =>
    match splitDots cs with
    | [] => [[]]
    | w :: ws => if c = '.' then [] :: w :: ws else (c :: w) :: ws

/-- The characters a dot-separated field path may not contain. -/
def invalidRunes : List Char := ['~', '*', '/', '[', ']']

/-- The client's reading of the first argument of `Where`: the string is cut
at the dots into a field path; a string with one of `invalidRunes` or with an
empty component is refused. -/
def parseDotSeparatedString (s : String) : Option (List String) :=
  if s.toList.any (fun c => c ∈ invalidRunes) then none
  else
    let fp := (splitDots s.toList).map String.mk
    if fp.any (fun c => c = "") then none else some fp

/-- The right-hand side of an equality filter: the source passes a Go `int`
(the business id) or a Go `string` (a search value). -/
inductive Operand where
  | int (i : Int)
  | str (s : String)
deriving DecidableEq, Repr

/-- The store's `==`.  Numbers are compared by value across the two number
types, so the double `5.0` equals the integer `5`; a string equals only the
same string. -/
def valueEq (stored : Value) (op : Operand) : Bool :=
  match op, stored with
  | .int i, .int j => j == i
  | .int i, .double d => d.toInt? == some i
  | .str a, .str b => b == a
  | _, _ => false

/-- Whether a document passes the filter `path == op`. -/
def matchesWhere (fp : List String) (op : Operand) (d : Doc) : Bool :=
  match getAtPath fp d.data with
  | some v => valueEq v op
  | none => false

/-- Call `Collection("employees").Where(path, "==", op).Documents(ctx)`, read to
the end: the documents the cursor yields, in collection order, or the error
its first `Next` returns for a path the client refuses. -/
def Where (path : String) (op : Operand) (s : Store) : Except Error (List Doc) :=
  match parseDotSeparatedString path with
  | none => .error .store
  | some fp => .ok (s.filter (matchesWhere fp op))

/-- Call `Collection("employees").Add(ctx, data)`: the store creates the document
under a generated identifier `ref`; `pos` is the rank of that identifier among
the existing ones, that is the place of the new document in cursor order.
Creating under an identifier that is taken is refused. -/
def collectionAdd (ref : String) (pos : Nat) (data : Fields) (s : Store) : Except Error Store :=
  if s.any (fun d => d.ref = ref) then .error .store
  else .ok (s.take pos ++ ⟨ref, data⟩ :: s.drop pos)

/-- Call `doc.Ref.Delete(ctx)`: the document of that reference is gone afterwards. -/
def refDelete (ref : String) (s : Store) : Store :=
  s.filter (fun d => d.ref ≠ ref)

mutual
/-- The leaves of a map with their field paths, as `Set` with `MergeAll`
collects them: a map is descended into, every other value is a leaf. -/
def fpvsFromData (pre : List String) : Value → List (List String × Value)
  | .map fs => fpvsFromFields pre fs
  | v => [(pre, v)]
/-- The leaves under each entry of a map. -/
def fpvsFromFields (pre : List String) : Fields → List (List String × Value)
  | [] => []
  | (k, v) :: rest => fpvsFromData (pre ++ [k]) v ++ fpvsFromFields pre rest
end

/-- Apply the leaves of an update to the fields of a document, one path at a
time. -/
def applyLeaves (fpvs : List (List String × Value)) (fs : Fields) : Fields :=
  fpvs.foldl (fun acc fpv => setAtPath fpv.1 fpv.2 acc) fs

/-- Call `doc.Ref.Set(ctx, data, firestore.MergeAll)` on a document that was just
read.  An empty map is sent as a write that changes nothing; otherwise the
write carries the leaves of the map and its update mask lists their paths, so
the store overwrites exactly those paths.  A map that is not empty and has no
leaf (all its values are empty maps) yields no write, which the client reports
as an error. -/
def refSetMergeAll (ref : String) (data : Fields) (s : Store) : Except Error Store :=
  if data = [] then .ok s
  else
    match fpvsFromFields [] data with
    | [] => .error .store
    | fpvs =>
      .ok (s.map (fun d => if d.ref = ref then { d with data := applyLeaves fpvs d.data } else d))

/-! ## `sharedpackage/model.go` -/

/-- The `Employee` struct. -/
structure Employee where
  ID : Int
  FirstName : String
  LastName : String
  Email : String
  Password : String
  PhoneNo : Int
  Role : String
  Salary : Float64
deriving DecidableEq, Repr

/-- A struct field as declared: its Go name and its tag, the tag as the list
of its `key:"value"` pairs. -/
structure StructField where
  name : String
  tag : List (String × String)
deriving DecidableEq, Repr

/-- The eight field declarations of `Employee`, tags as written in the
source. -/
def EmployeeFields : List StructField :=
  [ ⟨"ID", [("firestore", "id"), ("json", "id")]⟩,
    ⟨"FirstName", [("firestore", "firstName"), ("json", "firstName")]⟩,
    ⟨"LastName", [("firestore", "lastName"), ("josn", "lastName")]⟩,
    ⟨"Email", [("firestore", "email"), ("json", "email")]⟩,
    ⟨"Password", [("firestore", "password"), ("json", "password")]⟩,
    ⟨"PhoneNo", [("firestore", "phoneNo"), ("json", "phoneNo")]⟩,
    ⟨"Role", [("firestore", "role"), ("json", "role")]⟩,
    ⟨"Salary", [("firestore", "salary"), ("json", "salary")]⟩ ]

/-- Call `reflect.StructTag.Lookup`: the value the tag gives for a key. -/
def tagLookup (key : String) : List (String × String) → Option String
  | [] => none
  | (k, v) :: rest => if k = key then some v else tagLookup key rest

/-- The name an encoder that reads the tag key `key` (`json` for
`encoding/json`, `firestore` for the store client) uses for a struct field:
the tag's value for that key, and the Go field name when the tag has none. -/
def encodedName (key : String) (f : StructField) : String :=
  match tagLookup key f.tag with
  | some n => n
  | none => f.name

/-- The field values of an employee in declaration order, as the encoders see
them: Go `int` as integer, `string` as string, `float64` as double. -/
def fieldValues (e : Employee) : List Value :=
  [.int e.ID, .str e.FirstName, .str e.LastName, .str e.Email, .str e.Password,
   .int e.PhoneNo, .str e.Role, .double e.Salary]

/-- The document data the store client writes for an `Employee` struct: one
field per struct field, under its `firestore` name. -/
def toFields (e : Employee) : Fields :=
  (EmployeeFields.map (encodedName "firestore")).zip (fieldValues e)

/-- Call `doc.DataTo` into an `int` field: absent and null leave the zero value, an
integer is taken, a double is taken when it is integral and fits `int64`. -/
def intFrom : Option Value → Except Error Int
  | none => .ok 0
  | some .null => .ok 0
  | some (.int i) => .ok i
  | some (.double d) =>
    match d.toInt? with
    | some i => if -(2 ^ 63 : Int) ≤ i ∧ i < 2 ^ 63 then .ok i else .error .conversion
    | none => .error .conversion
  | some _ => .error .conversion

/-- Call `doc.DataTo` into a `string` field. -/
def stringFrom : Option Value → Except Error String
  | none => .ok ""
  | some .null => .ok ""
  | some (.str s) => .ok s
  | some _ => .error .conversion

/-- Call `doc.DataTo` into a `float64` field: a double is taken, an integer is
taken when a double holds it exactly. -/
def floatFrom : Option Value → Except Error Float64
  | none => .ok ⟨0⟩
  | some .null => .ok ⟨0⟩
  | some (.double d) => .ok d
  | some (.int i) =>
    match Float64.ofInt? i with
    | some d => .ok d
    | none => .error .conversion
  | some _ => .error .conversion

/-- Case folding of one character, as far as it can reach an ASCII letter:
a capital folds to its small letter, and the long s (U+017F) and the Kelvin
sign (U+212A) fold to `s` and `k`. -/
def foldChar (c : Char) : Char :=
  if 'A' ≤ c ∧ c ≤ 'Z' then Char.ofNat (c.toNat + 32)
  else if c = Char.ofNat 0x17F then 's'
  else if c = Char.ofNat 0x212A then 'k'
  else c

/-- Two names are equal under case folding; the second is the name of a struct
field, which is ASCII. -/
def equalFold (a b : String) : Bool :=
  a.toList.map foldChar == b.toList.map foldChar

/-- The document field the store client takes for the struct field of the
`firestore` name `name`: the field of exactly that name, and when the document
has none, a field whose name equals it under case folding (the first one in
the document's field list; the client takes one of them). -/
def matchField (name : String) (fs : Fields) : Option Value :=
  match getField name fs with
  | some v => some v
  | none => (fs.find? (fun kv => equalFold kv.1 name)).map Prod.snd

/-- Call `doc.DataTo(&employee)`: every struct field is filled from the document
field matched to its `firestore` name; a value of the wrong type is an error. -/
def DataTo (fs : Fields) : Except Error Employee := do
  let id ← intFrom (matchField "id" fs)
  let firstName ← stringFrom (matchField "firstName" fs)
  let lastName ← stringFrom (matchField "lastName" fs)
  let email ← stringFrom (matchField "email" fs)
  let password ← stringFrom (matchField "password" fs)
  let phoneNo ← intFrom (matchField "phoneNo" fs)
  let role ← stringFrom (matchField "role" fs)
  let salary ← floatFrom (matchField "salary" fs)
  return ⟨id, firstName, lastName, email, password, phoneNo, role, salary⟩

/-- Call `json.Marshal(employee)`: the JSON object, one member per struct field
under its `json` name, in declaration order.  A salary that is not finite is
an error. -/
def Marshal (e : Employee) : Except Error Fields :=
  if e.Salary.isFinite then .ok ((EmployeeFields.map (encodedName "json")).zip (fieldValues e))
  else .error .conversion

/-! ## `firestore/firestore.go` -/

/-- Function `EmployeeExists`: the filter `id == employeeID`, and `true` at the first
document the cursor yields. -/
def EmployeeExists (employeeID : Int) (s : Store) : Except Error Bool :=
  match Where "id" (.int employeeID) s with
  | .error err => .error err
  | .ok [] => .ok false
  | .ok (_ :: _) => .ok true

/-- Function `AddEmployee`.  `ref` and `pos` are the identifier the store generates for
the new document and its place in cursor order.  The result is the returned
error (`none` for `nil`) and the collection afterwards. -/
def AddEmployee (ref : String) (pos : Nat) (employee : Employee) (s : Store) :
    Option Error × Store :=
  match EmployeeExists employee.ID s with
  | .error err => (some err, s)
  | .ok true => (some (.alreadyExists employee.ID), s)
  | .ok false =>
    match collectionAdd ref pos (toFields employee) s with
    | .error err => (some err, s)
    | .ok s1 => (none, s1)

/-- The loop of `GetAllEmployees` over the documents the cursor yields. -/
def getAllLoop : List Doc → List Employee → Except Error (List Employee)
  | [], employees => .ok employees
  | doc :: rest, employees =>
    match DataTo doc.data with
    | .error err => .error err
    | .ok employeeData => getAllLoop rest (employees ++ [employeeData])

/-- Function `GetAllEmployees`. -/
def GetAllEmployees (s : Store) : Except Error (List Employee) :=
  getAllLoop s []

/-- Function `GetEmployeeByID`: the first document of the filter `id == employeeID`,
converted; the not-found error when the cursor is exhausted at once. -/
def GetEmployeeByID (employeeID : Int) (s : Store) : Except Error Employee :=
  match Where "id" (.int employeeID) s with
  | .error err => .error err
  | .ok [] => .error (.notFound employeeID)
  | .ok (doc :: _) =>
    match DataTo doc.data with
    | .error err => .error err
    | .ok employee => .ok employee

/-- The first loop of `DeleteEmployee`: count the documents of the cursor. -/
def countLoop : List Doc → Nat → Nat
  | [], numDocuments => numDocuments
  | _ :: rest, numDocuments => countLoop rest (numDocuments + 1)

/-- The second loop of `DeleteEmployee`: delete every document of the cursor
by its reference. -/
def deleteLoop : List Doc → Store → Store
  | [], s => s
  | doc :: rest, s => deleteLoop rest (refDelete doc.ref s)

/-- Function `DeleteEmployee`. -/
def DeleteEmployee (employeeID : Int) (s : Store) : Option Error × Store :=
  match Where "id" (.int employeeID) s with
  | .error err => (some err, s)
  | .ok docs =>
    if countLoop docs 0 = 0 then (some .noDocument, s)
    else
      match Where "id" (.int employeeID) s with
      | .error err => (some err, s)
      | .ok docs2 => (none, deleteLoop docs2 s)

/-- The copy loop of `UpdateEmployee`: `updatedMap[key] = value` for every
entry. -/
def copyMap (updatedFields : Fields) : Fields :=
  updatedFields.foldl (fun updatedMap kv => setField kv.1 kv.2 updatedMap) []

/-- Function `UpdateEmployee`: nothing is written and `nil` is returned when the filter
`id == employeeID` yields no document; otherwise the first document yielded is
written with `Set(updatedMap, MergeAll)`. -/
def UpdateEmployee (employeeID : Int) (updatedFields : Fields) (s : Store) :
    Option Error × Store :=
  match Where "id" (.int employeeID) s with
  | .error err => (some err, s)
  | .ok [] => (none, s)
  | .ok (doc :: _) =>
    match refSetMergeAll doc.ref (copyMap updatedFields) s with
    | .error err => (some err, s)
    | .ok s1 => (none, s1)

/-- The inner loop of `SearchEmployee`: convert and append every document of
one cursor. -/
def appendLoop : List Doc → List Employee → Except Error (List Employee)
  | [], employees => .ok employees
  | doc :: rest, employees =>
    match DataTo doc.data with
    | .error err => .error err
    | .ok employeeData => appendLoop rest (employees ++ [employeeData])

/-- The outer loop of `SearchEmployee` over the entries of the parameter map,
in the order in which `range` visits them. -/
def searchLoop (s : Store) : List (String × String) → List Employee →
    Except Error (List Employee)
  | [], employees => .ok employees
  | (key, value) :: rest, employees =>
    match Where key (.str value) s with
    | .error err => .error err
    | .ok docs =>
      match appendLoop docs employees with
      | .error err => .error err
      | .ok employees1 => searchLoop s rest employees1

/-- Function `SearchEmployee`.  `searchParams` lists the entries of the Go map in the
order in which this call's `range` visits them. -/
def SearchEmployee (searchParams : List (String × String)) (s : Store) :
    Except Error (List Employee) :=
  searchLoop s searchParams []

/-! ## `employee/handler.go` -/

/-- What a handler writes as the body of its answer. -/
inductive Body where
  /-- Plain text. -/
  | text (s : String)
  /-- The JSON object `json.Marshal` produced. -/
  | json (object : Fields)
deriving DecidableEq, Repr

/-- The answer of a handler: status code and body. -/
structure Response where
  status : Nat
  body : Body
deriving DecidableEq, Repr

/-- Call `http.Error(w, msg, code)`: the message and a newline as plain text. -/
def httpError (msg : String) (code : Nat) : Response :=
  ⟨code, .text (msg ++ "\n")⟩

/-- Call `strconv.Atoi`: an optional sign, then one or more decimal digits, the
value within `int64`. -/
def Atoi (s : String) : Option Int :=
  let cs := s.toList
  let neg : Bool := cs.head? = some '-'
  let ds := if cs.head? = some '-' ∨ cs.head? = some '+' then cs.tail else cs
  if ds = [] then none
  else if ds.all Char.isDigit then
    let n : Int := ds.foldl (fun acc c => 10 * acc + ((c.toNat - 48 : Nat) : Int)) 0
    let v := if neg then -n else n
    if -(2 ^ 63 : Int) ≤ v ∧ v < 2 ^ 63 then some v else none
  else none

/-- Call `bcrypt.GenerateFromPassword(password, bcrypt.DefaultCost)`, an external
library call: from the random salt it draws and the password it returns the
hash, or an error (`none`). -/
abbrev Bcrypt := (salt : Nat) → (password : String) → Option String

/-- The head of every hash string the library returns at `bcrypt.DefaultCost`:
version `2a` and cost `10`. -/
def bcrypt.hashHead : String := "$2a$10$"

/-- The hashing call as the library behaves, over the digest it computes.  A
password longer than 72 bytes is refused (`ErrPasswordTooLong`); otherwise the
hash string is `$2a$10$` followed by the encoded salt and digest, for which
`digest salt password` stands. -/
def bcrypt.GenerateFromPassword (digest : Nat → String → String) : Bcrypt :=
  fun salt password =>
    if 72 < password.utf8ByteSize then none
    else some (bcrypt.hashHead ++ digest salt password)

/-- A plaintext that itself starts with the head of a hash string. -/
def bcrypt.startsLikeHash (password : String) : Bool :=
  bcrypt.hashHead.toList.isPrefixOf password.toList

/-- Function `GetEmployeeByIDHandler`.  `vars` is `mux.Vars(r)["id"]`. -/
def GetEmployeeByIDHandler (vars : Option String) (s : Store) : Response :=
  match vars with
  | none => httpError "Invalid URL" 400
  | some employeeIDStr =>
    match Atoi employeeIDStr with
    | none => httpError "Invalid employee ID" 400
    | some employeeID =>
      match GetEmployeeByID employeeID s with
      | .error _ => httpError "Employee not found" 404
      | .ok employee =>
        match Marshal employee with
        | .error _ => httpError "Internal Server Error" 500
        | .ok employeeJSON => ⟨200, .json employeeJSON⟩

/-- Function `AddEmployeeHandler`.  `body` is the result of decoding the request body
into an `Employee` (`none` when decoding fails); `salt`, `ref` and `pos` are
what the hashing library and the store draw for this request.  The answer is
`none` when `log.Fatal` ends the process before anything is answered. -/
def AddEmployeeHandler (generateFromPassword : Bcrypt) (salt : Nat) (ref : String) (pos : Nat)
    (body : Option Employee) (s : Store) : Option Response × Store :=
  match body with
  | none => (some (httpError "Error parsing request body" 400), s)
  | some newEmployee =>
    match EmployeeExists newEmployee.ID s with
    | .error _ => (some (httpError "Error checking employee ID" 500), s)
    | .ok true => (some (httpError "Employee with the given ID already exists" 400), s)
    | .ok false =>
      match generateFromPassword salt newEmployee.Password with
      | none => (none, s)
      | some hashedPassword =>
        match AddEmployee ref pos { newEmployee with Password := hashedPassword } s with
        | (some _, s1) => (some (httpError "Error adding employee to Firestore" 500), s1)
        | (none, s1) => (some ⟨200, .text "Employee added successfully to Firestore"⟩, s1)

/-- Function `UpdateEmployeeHandler`.  `vars` is `mux.Vars(r)["id"]`; `body` is the
result of decoding the request body into a `map[string]interface{}` (`none`
when decoding fails). -/
def UpdateEmployeeHandler (vars : Option String) (body : Option Fields) (s : Store) :
    Response × Store :=
  match vars with
  | none => (httpError "Invalid URL" 400, s)
  | some employeeIDStr =>
    match Atoi employeeIDStr with
    | none => (httpError "Invalid employee ID" 400, s)
    | some employeeID =>
      match body with
      | none => (httpError "Invalid request body" 400, s)
      | some updatedFields =>
        match UpdateEmployee employeeID updatedFields s with
        | (some _, s1) => (httpError "Internal Server Error" 500, s1)
        | (none, s1) => (⟨200, .text "Employee updated successfully"⟩, s1)

/-! ## Sequential runs of requests -/

/-- A request that writes: `POST /employee` with the decoded body and what the
hashing library and the store draw for it, or `PATCH /employee/{id}` with the
path variable and the decoded body. -/
inductive Request where
  | create (body : Option Employee) (salt : Nat) (ref : String) (pos : Nat)
  | update (vars : Option String) (body : Option Fields)

/-- The collection after one request is served. -/
def serve (generateFromPassword : Bcrypt) (s : Store) : Request → Store
  | .create body salt ref pos => (AddEmployeeHandler generateFromPassword salt ref pos body s).2
  | .update vars body => (UpdateEmployeeHandler vars body s).2

/-- The collection after a sequence of requests is served one after the
other. -/
def serveAll (generateFromPassword : Bcrypt) (s : Store) (requests : List Request) : Store :=
  requests.foldl (serve generateFromPassword) s

/-! ## Sequential runs of store calls -/

/-- A call of one of the three functions of the store access layer that
write: `AddEmployee` (with the identifier and the place the store draws for
the new document), `UpdateEmployee` or `DeleteEmployee`. -/
inductive Call where
  | add (ref : String) (pos : Nat) (employee : Employee)
  | update (employeeID : Int) (updatedFields : Fields)
  | delete (employeeID : Int)

/-- The collection after one call. -/
def perform (s : Store) : Call → Store
  | .add ref pos employee => (AddEmployee ref pos employee s).2
  | .update employeeID updatedFields => (UpdateEmployee employeeID updatedFields s).2
  | .delete employeeID => (DeleteEmployee employeeID s).2

/-- The collection after a sequence of calls, one after the other. -/
def performAll (s : Store) (calls : List Call) : Store :=
  calls.foldl perform s

/-! ## Vocabulary of the properties -/

/-- A document has business id `employeeID` when it passes the filter
`id == employeeID` that every lookup of the source uses. -/
def hasBusinessID (employeeID : Int) (d : Doc) : Bool :=
  matchesWhere ["id"] (.int employeeID) d

/-- The document identifiers of a collection are pairwise different. -/
def RefsDistinct (s : Store) : Prop :=
  (s.map Doc.ref).Nodup

/-- The keys of a Go map are pairwise different. -/
def KeysDistinct {α : Type} (m : List (String × α)) : Prop :=
  (m.map Prod.fst).Nodup

mutual
/-- Every JSON object inside the value has pairwise different keys. -/
def Value.distinctKeys : Value → Bool
  | .map fs => fieldsDistinctKeys fs
  | _ => true
/-- The keys of the map are pairwise different, and so are the keys of every
JSON object nested in it (what a decoded Go map always satisfies). -/
def fieldsDistinctKeys : Fields → Bool
  | [] => true
  | (k, v) :: rest =>
    !(rest.any (fun kv => kv.1 == k)) && Value.distinctKeys v && fieldsDistinctKeys rest
end

/-- Two field paths address fields that do not contain one another: neither
path is an initial segment of the other. -/
def Apart (p q : List String) : Prop :=
  ¬ p <+: q ∧ ¬ q <+: p

/-- The map stored in a top-level field; the empty map when the field is
absent or holds something else. -/
def subMap (k : String) (fs : Fields) : Fields :=
  match getField k fs with
  | some (.map m) => m
  | _ => []

/-- A document's field `key` equals the string `value`: it passes the filter
`key == value` of `SearchEmployee`. -/
def fieldEquals (key value : String) (d : Doc) : Bool :=
  match parseDotSeparatedString key with
  | some fp => matchesWhere fp (.str value) d
  | none => false

/-- The employee a document converts to, when `DataTo` succeeds on it. -/
def decoded (d : Doc) : Option Employee :=
  (DataTo d.data).toOption

/-- Every stored password is a hash: the `password` field of every document
is a string that some call of the hashing function returned. -/
def PasswordsHashed (generateFromPassword : Bcrypt) (s : Store) : Prop :=
  ∀ d ∈ s, ∃ salt pw h,
    generateFromPassword salt pw = some h ∧ getField "password" d.data = some (.str h)

/-- A request that cannot touch a stored password: any create request, and a
partial update whose decoded body has no `password` key. -/
def keepsPassword : Request → Prop
  | .update _ (some m) => KeysDistinct m ∧ "password" ∉ m.map Prod.fst
  | _ => True

/-- No two documents of the collection share a business id: for every id, at
most one document passes the filter `id == id`. -/
def BusinessIDsUnique (s : Store) : Prop :=
  ∀ i : Int, (s.filter (hasBusinessID i)).length ≤ 1

/-- A call that cannot write the `id` field of a stored document: any add or
delete, and an update whose map has no `id` key. -/
def keepsID : Call → Prop
  | .update _ m => KeysDistinct m ∧ "id" ∉ m.map Prod.fst
  | _ => True

/-- Reference for `DeleteEmployee`, from the words of the specification: an
error and no change when no document has the business id; otherwise success,
and every document of that business id is removed while every other document
stays. -/
def deleteReference (employeeID : Int) (s : Store) : Option Error × Store :=
  if s.all (fun d => !hasBusinessID employeeID d) then (some .noDocument, s)
  else (none, s.filter (fun d => !hasBusinessID employeeID d))

instance (s : Store) : Decidable (RefsDistinct s) := by
  unfold RefsDistinct; infer_instance

instance (p q : List String) : Decidable (Apart p q) := by
  unfold Apart; infer_instance

instance {α : Type} (m : List (String × α)) : Decidable (KeysDistinct m) := by
  unfold KeysDistinct; infer_instance

/-! ## Sample data -/

/-- A stand-in for the hashing call, used where a property is evaluated on
concrete data: it never fails and never returns its input. -/
def sampleHash : Bcrypt := fun _ pw => some ("$2a$10$" ++ pw)

/-- The double `100000.0`. -/
def salary100k : Float64 := ⟨0x40F86A0000000000⟩

/-- The double `2.0`. -/
def two : Float64 := ⟨0x4000000000000000⟩

/-- Employee A as a create request carries it. -/
def employeeA : Employee :=
  ⟨1, "A", "Archer", "a@example.com", "secretA", 5550101, "Eng", salary100k⟩

/-- Employee B as a create request carries it. -/
def employeeB : Employee :=
  ⟨2, "B", "Baker", "b@example.com", "secretB", 5550102, "Eng", salary100k⟩

/-- The document of employee A as `AddEmployeeHandler` stores it. -/
def docA : Doc := ⟨"doc1", toFields { employeeA with Password := "$2a$10$secretA" }⟩

/-- The document of employee B as `AddEmployeeHandler` stores it. -/
def docB : Doc := ⟨"doc2", toFields { employeeB with Password := "$2a$10$secretB" }⟩

/-- A's document after a PATCH with the body `{"address": {"city": "Oslo"}}`. -/
def docAddress : Doc :=
  ⟨"doc1", toFields { employeeA with Password := "$2a$10$secretA" } ++
    [("address", .map [("city", .str "Oslo")])]⟩

/-- The decoded PATCH body `{"address": {"zip": "0150"}}`. -/
def bodyZip : Fields := [("address", .map [("zip", .str "0150")])]

/-- The decoded PATCH body `{"role": "Manager"}`. -/
def bodyRole : Fields := [("role", .str "Manager")]

/-- A's document after a PATCH with the body `{"salary": "high"}`. -/
def docSalaryText : Doc :=
  ⟨"doc1", [("id", .int 1), ("firstName", .str "A"), ("lastName", .str "Archer"),
    ("email", .str "a@example.com"), ("password", .str "$2a$10$secretA"),
    ("phoneNo", .int 5550101), ("role", .str "Eng"), ("salary", .str "high")]⟩

/-- The decoded PATCH body `{"password": "hunter2"}`. -/
def bodyPassword : Fields := [("password", .str "hunter2")]

/-- The map `{"id": 2}` as a JSON body decodes to it: the number is a double. -/
def bodyID : Fields := [("id", .double two)]

/-- Two documents seeded into the store under the same business id 42. -/
def doc42a : Doc := ⟨"doc3", toFields { employeeA with ID := 42 }⟩

/-- The second document of business id 42. -/
def doc42b : Doc := ⟨"doc4", toFields { employeeB with ID := 42 }⟩


/-! ## The model on concrete values -/

theorem float64_toInt_examples :
    two.toInt? = some 2 ∧ salary100k.toInt? = some 100000 ∧
    (Float64.mk 0x3FF8000000000000).toInt? = none ∧
    Float64.ofInt? 2 = some two ∧ Float64.ofInt? (2 ^ 53 + 1) = none := by
  decide

theorem valueEq_examples :
    valueEq (.int 2) (.int 2) = true ∧ valueEq (.double two) (.int 2) = true ∧
    valueEq (.str "2") (.int 2) = false ∧ valueEq (.int 2) (.str "2") = false := by
  decide

theorem parseDotSeparatedString_examples :
    parseDotSeparatedString "id" = some ["id"] ∧
    parseDotSeparatedString "a.b" = some ["a", "b"] ∧
    parseDotSeparatedString "a..b" = none ∧
    parseDotSeparatedString "" = none ∧
    parseDotSeparatedString "tags[]" = none := by
  decide

theorem atoi_examples :
    Atoi "42" = some 42 ∧ Atoi "-7" = some (-7) ∧ Atoi "+7" = some 7 ∧
    Atoi "" = none ∧ Atoi "4x" = none ∧ Atoi "9223372036854775808" = none := by
  decide

theorem dataTo_case_folding_examples :
    DataTo [("ROLE", .str "x"), ("Id", .int 5)] = .ok ⟨5, "", "", "", "", 0, "x", ⟨0⟩⟩ ∧
    DataTo [("ROLE", .int 1), ("role", .str "x")] = .ok ⟨0, "", "", "", "", 0, "x", ⟨0⟩⟩ ∧
    DataTo [("SALARY", .str "high")] = .error .conversion ∧
    DataTo [("sa-lary", .str "high")] = .ok ⟨0, "", "", "", "", 0, "", ⟨0⟩⟩ := by
  decide

theorem dataTo_examples :
    DataTo docA.data = .ok { employeeA with Password := "$2a$10$secretA" } ∧
    DataTo [("id", .double two)] = .ok ⟨2, "", "", "", "", 0, "", ⟨0⟩⟩ ∧
    DataTo [("id", .str "2")] = .error .conversion := by
  decide

/-- The sample documents are what the handlers leave in the store: A's and B's
documents after two create requests, and the two patched versions of A's
document after one more PATCH each. -/
theorem sample_documents_reachable :
    serveAll sampleHash []
        [.create (some employeeA) 7 "doc1" 0, .create (some employeeB) 8 "doc2" 1]
      = [docA, docB] ∧
    serveAll sampleHash [] [.create (some employeeA) 7 "doc1" 0,
        .update (some "1") (some [("address", .map [("city", .str "Oslo")])])]
      = [docAddress] ∧
    serveAll sampleHash [] [.create (some employeeA) 7 "doc1" 0,
        .update (some "1") (some [("salary", .str "high")])]
      = [docSalaryText] := by
  decide


/-! ## Lemmas on the store -/

theorem where_id (i : Int) (s : Store) :
    Where "id" (.int i) s = .ok (s.filter (hasBusinessID i)) := rfl

theorem filter_eq_nil_of_none {α : Type} (p : α → Bool) (l : List α)
    (h : ∀ d ∈ l, p d = false) : l.filter p = [] := by
  induction l with
  | nil => rfl
  | cons a l ih =>
    have ha : p a = false := h a (List.mem_cons_self a l)
    simp only [List.filter_cons, ha]
    exact ih (fun d hd => h d (List.mem_cons_of_mem a hd))

theorem employeeExists_true (i : Int) (s : Store) (h : ∃ d ∈ s, hasBusinessID i d = true) :
    EmployeeExists i s = .ok true := by
  obtain ⟨d, hd, hi⟩ := h
  have hmem : d ∈ s.filter (hasBusinessID i) := List.mem_filter.mpr ⟨hd, hi⟩
  unfold EmployeeExists
  rw [where_id]
  cases hf : s.filter (hasBusinessID i) with
  | nil => rw [hf] at hmem; cases hmem
  | cons a l => rfl

theorem employeeExists_false (i : Int) (s : Store) (h : ∀ d ∈ s, hasBusinessID i d = false) :
    EmployeeExists i s = .ok false := by
  unfold EmployeeExists
  rw [where_id, filter_eq_nil_of_none _ _ h]

/-- C1: when some document already has business id `e.ID`, `AddEmployee`
returns the already-exists error and the collection is exactly the one it was
given, and `AddEmployeeHandler` answers 400 without writing either. -/
theorem addEmployee_duplicate_rejected (generateFromPassword : Bcrypt) (salt : Nat)
    (ref : String) (pos : Nat) (e : Employee) (s : Store)
    (h : ∃ d ∈ s, hasBusinessID e.ID d = true) :
    AddEmployee ref pos e s = (some (.alreadyExists e.ID), s) ∧
    AddEmployeeHandler generateFromPassword salt ref pos (some e) s =
      (some (httpError "Employee with the given ID already exists" 400), s) := by
  have hex := employeeExists_true e.ID s h
  constructor
  · unfold AddEmployee
    rw [hex]
  · unfold AddEmployeeHandler
    simp only [hex]

/-- C1 at a concrete input: creating employee A again on a collection that
holds A's document. -/
theorem addEmployee_duplicate_rejected_witness :
    AddEmployee "doc2" 1 employeeA [docA] = (some (.alreadyExists 1), [docA]) ∧
    AddEmployeeHandler sampleHash 7 "doc2" 1 (some employeeA) [docA] =
      (some (httpError "Employee with the given ID already exists" 400), [docA]) :=
  addEmployee_duplicate_rejected sampleHash 7 "doc2" 1 employeeA [docA]
    ⟨docA, by decide, by decide⟩

theorem insert_perm {α : Type} (pos : Nat) (d : α) (s : List α) :
    List.Perm (s.take pos ++ d :: s.drop pos) (d :: s) := by
  have h1 : List.Perm (s.take pos ++ d :: s.drop pos) (d :: (s.take pos ++ s.drop pos)) :=
    List.perm_middle
  rwa [List.take_append_drop] at h1

theorem sampleHash_ne (n : Nat) (pw h : String) (hh : sampleHash n pw = some h) : h ≠ pw := by
  unfold sampleHash at hh
  cases hh
  intro heq
  have hlen := congrArg String.length heq
  rw [String.length_append] at hlen
  have h7 : ("$2a$10$" : String).length = 7 := by decide
  omega

/-- Why the amended C2 speaks of plaintexts that do not start with `$2a$10$`:
for a plaintext that does, whether the hash string equals it depends on the
digest alone; under a digest that returns `x`, the plaintext `$2a$10$x` is its
own hash string. -/
theorem generateFromPassword_head_plaintext :
    bcrypt.startsLikeHash "$2a$10$x" = true ∧
    bcrypt.GenerateFromPassword (fun _ _ => "x") 0 "$2a$10$x" = some "$2a$10$x" := by
  decide

theorem getField_setField (k l : String) (v : Value) (fs : Fields) :
    getField k (setField l v fs) = if l = k then some v else getField k fs := by
  induction fs with
  | nil => simp [setField, getField]
  | cons a fs ih =>
    obtain ⟨m, w⟩ := a
    by_cases hml : m = l
    · subst hml
      by_cases hmk : m = k <;> simp [setField, getField, hmk]
    · by_cases hlk : l = k
      · subst hlk
        simp [setField, getField, hml, ih]
      · simp [setField, getField, hml, ih, hlk]

theorem getField_setAtPath_head_ne (k l : String) (rest : List String) (v : Value)
    (fs : Fields) (h : l ≠ k) :
    getField k (setAtPath (l :: rest) v fs) = getField k fs := by
  cases rest with
  | nil => simp [setAtPath, getField_setField, h]
  | cons r rs =>
    simp only [setAtPath]
    split <;> simp [getField_setField, h]

theorem getField_setAtPath_single (k : String) (v : Value) (fs : Fields) :
    getField k (setAtPath [k] v fs) = some v := by
  simp [setAtPath, getField_setField]

mutual
theorem fpvsFromData_path : ∀ (v : Value) (pre p : List String) (w : Value),
    (p, w) ∈ fpvsFromData pre v → ∃ rest, p = pre ++ rest
  | .null, pre, p, w, h => by
      simp only [fpvsFromData, List.mem_singleton, Prod.mk.injEq] at h; exact ⟨[], by simp [h.1]⟩
  | .bool _, pre, p, w, h => by
      simp only [fpvsFromData, List.mem_singleton, Prod.mk.injEq] at h; exact ⟨[], by simp [h.1]⟩
  | .int _, pre, p, w, h => by
      simp only [fpvsFromData, List.mem_singleton, Prod.mk.injEq] at h; exact ⟨[], by simp [h.1]⟩
  | .double _, pre, p, w, h => by
      simp only [fpvsFromData, List.mem_singleton, Prod.mk.injEq] at h; exact ⟨[], by simp [h.1]⟩
  | .str _, pre, p, w, h => by
      simp only [fpvsFromData, List.mem_singleton, Prod.mk.injEq] at h; exact ⟨[], by simp [h.1]⟩
  | .array _, pre, p, w, h => by
      simp only [fpvsFromData, List.mem_singleton, Prod.mk.injEq] at h; exact ⟨[], by simp [h.1]⟩
  | .map fs, pre, p, w, h => by
      simp only [fpvsFromData] at h
      obtain ⟨k, rest, _, hp⟩ := fpvsFromFields_path fs pre p w h
      exact ⟨k :: rest, hp⟩
theorem fpvsFromFields_path : ∀ (fs : Fields) (pre p : List String) (w : Value),
    (p, w) ∈ fpvsFromFields pre fs →
      ∃ k rest, k ∈ fs.map Prod.fst ∧ p = pre ++ k :: rest
  | [], pre, p, w, h => by simp [fpvsFromFields] at h
  | (k, v) :: fs, pre, p, w, h => by
      simp only [fpvsFromFields, List.mem_append] at h
      rcases h with h | h
      · obtain ⟨rest, hp⟩ := fpvsFromData_path v (pre ++ [k]) p w h
        exact ⟨k, rest, by simp, by simp [hp]⟩
      · obtain ⟨l, rest, hl, hp⟩ := fpvsFromFields_path fs pre p w h
        exact ⟨l, rest, by simp [hl], hp⟩
end

theorem fpvsFromFields_append (pre : List String) (a b : Fields) :
    fpvsFromFields pre (a ++ b) = fpvsFromFields pre a ++ fpvsFromFields pre b := by
  induction a with
  | nil => simp [fpvsFromFields]
  | cons x a ih =>
    obtain ⟨k, v⟩ := x
    simp [fpvsFromFields, ih]

theorem fpvsFromData_leaf (pre : List String) (v : Value) (h : ∀ fs, v ≠ .map fs) :
    fpvsFromData pre v = [(pre, v)] := by
  cases v with
  | map fs => exact absurd rfl (h fs)
  | _ => simp [fpvsFromData]

theorem applyLeaves_append (a b : List (List String × Value)) (fs : Fields) :
    applyLeaves (a ++ b) fs = applyLeaves b (applyLeaves a fs) := by
  simp [applyLeaves, List.foldl_append]

theorem getField_applyLeaves_of_heads_ne (k : String) (fpvs : List (List String × Value))
    (h : ∀ p w, (p, w) ∈ fpvs → ∃ l rest, l ≠ k ∧ p = l :: rest) (fs : Fields) :
    getField k (applyLeaves fpvs fs) = getField k fs := by
  induction fpvs generalizing fs with
  | nil => rfl
  | cons a fpvs ih =>
    obtain ⟨p, w⟩ := a
    obtain ⟨l, rest, hl, hp⟩ := h p w (List.mem_cons_self _ _)
    subst hp
    have : applyLeaves ((l :: rest, w) :: fpvs) fs
        = applyLeaves fpvs (setAtPath (l :: rest) w fs) := rfl
    rw [this, ih (fun p w hm => h p w (List.mem_cons_of_mem _ hm)),
      getField_setAtPath_head_ne k l rest w fs hl]

theorem heads_ne_of_not_key (k : String) (m : Fields) (hk : k ∉ m.map Prod.fst) :
    ∀ p w, (p, w) ∈ fpvsFromFields [] m → ∃ l rest, l ≠ k ∧ p = l :: rest := by
  intro p w hm
  obtain ⟨l, rest, hl, hp⟩ := fpvsFromFields_path m [] p w hm
  refine ⟨l, rest, ?_, by simpa using hp⟩
  rintro rfl
  exact hk hl

theorem getField_applyLeaves_of_not_key (k : String) (m fs : Fields)
    (hk : k ∉ m.map Prod.fst) :
    getField k (applyLeaves (fpvsFromFields [] m) fs) = getField k fs :=
  getField_applyLeaves_of_heads_ne k _ (heads_ne_of_not_key k m hk) fs

theorem getField_applyLeaves_of_leaf (k : String) (v : Value) (m fs : Fields)
    (hkeys : KeysDistinct m) (hmem : (k, v) ∈ m) (hleaf : ∀ gs, v ≠ .map gs) :
    getField k (applyLeaves (fpvsFromFields [] m) fs) = some v := by
  obtain ⟨m1, m2, rfl⟩ := List.append_of_mem hmem
  have hnd : (m1.map Prod.fst ++ k :: m2.map Prod.fst).Nodup := by
    simpa [KeysDistinct] using hkeys
  have hk2 : k ∉ m2.map Prod.fst := by
    have := (List.nodup_append.mp hnd).2.1
    exact (List.nodup_cons.mp this).1
  have hsplit : fpvsFromFields [] (m1 ++ (k, v) :: m2)
      = fpvsFromFields [] m1 ++ ([([k], v)] ++ fpvsFromFields [] m2) := by
    rw [fpvsFromFields_append]
    simp [fpvsFromFields, fpvsFromData_leaf _ v hleaf]
  rw [hsplit, applyLeaves_append, applyLeaves_append,
    getField_applyLeaves_of_not_key k m2 _ hk2]
  exact getField_setAtPath_single k v _

theorem fpvsFromFields_ne_nil_of_leaf (k : String) (v : Value) (m : Fields)
    (hmem : (k, v) ∈ m) (hleaf : ∀ gs, v ≠ .map gs) : fpvsFromFields [] m ≠ [] := by
  obtain ⟨m1, m2, rfl⟩ := List.append_of_mem hmem
  rw [fpvsFromFields_append]
  simp [fpvsFromFields, fpvsFromData_leaf _ v hleaf]

theorem setField_of_not_key (k : String) (v : Value) (fs : Fields)
    (hk : k ∉ fs.map Prod.fst) : setField k v fs = fs ++ [(k, v)] := by
  induction fs with
  | nil => rfl
  | cons a fs ih =>
    obtain ⟨l, w⟩ := a
    simp only [List.map_cons, List.mem_cons, not_or] at hk
    simp [setField, Ne.symm hk.1, ih hk.2]

theorem foldl_setField_of_distinct (m acc : Fields)
    (h : ((acc ++ m).map Prod.fst).Nodup) :
    m.foldl (fun updatedMap kv => setField kv.1 kv.2 updatedMap) acc = acc ++ m := by
  induction m generalizing acc with
  | nil => simp
  | cons a m ih =>
    obtain ⟨k, v⟩ := a
    have hk : k ∉ acc.map Prod.fst := by
      simp only [List.map_append, List.map_cons] at h
      have := (List.nodup_append.mp h).2.2
      intro hmem
      exact this hmem (List.mem_cons_self _ _)
    simp only [List.foldl_cons, setField_of_not_key k v acc hk]
    rw [ih (acc ++ [(k, v)]) (by simpa using h)]
    simp

theorem copyMap_of_distinct (m : Fields) (h : KeysDistinct m) : copyMap m = m := by
  unfold copyMap
  simpa using foldl_setField_of_distinct m [] (by simpa [KeysDistinct] using h)


theorem getAtPath_nil_fields (p : List String) : getAtPath p [] = none := by
  cases p with
  | nil => rfl
  | cons k p => cases p <;> simp [getAtPath, getField]

theorem getAtPath_cons_cons (k l : String) (p : List String) (fs : Fields) :
    getAtPath (k :: l :: p) fs = getAtPath (l :: p) (subMap k fs) := by
  simp only [getAtPath, subMap]
  split
  · rfl
  · cases p <;> simp [getAtPath, getField]

theorem setAtPath_cons_cons (k l : String) (p : List String) (v : Value) (fs : Fields) :
    setAtPath (k :: l :: p) v fs
      = setField k (.map (setAtPath (l :: p) v (subMap k fs))) fs := by
  simp only [setAtPath, subMap]
  split <;> rfl

theorem subMap_setField_self (k : String) (m fs : Fields) :
    subMap k (setField k (.map m) fs) = m := by
  simp [subMap, getField_setField]

theorem subMap_congr (k : String) (fs gs : Fields) (h : getField k fs = getField k gs) :
    subMap k fs = subMap k gs := by
  simp [subMap, h]

theorem getAtPath_setAtPath_self (q : List String) (hq : q ≠ []) (v : Value) (fs : Fields) :
    getAtPath q (setAtPath q v fs) = some v := by
  induction q generalizing fs with
  | nil => exact absurd rfl hq
  | cons k q ih =>
    cases q with
    | nil => simp [getAtPath, setAtPath, getField_setField]
    | cons l q =>
      rw [setAtPath_cons_cons, getAtPath_cons_cons, subMap_setField_self]
      exact ih (by simp) _

theorem getAtPath_setAtPath_apart (p q : List String) (v : Value) (fs : Fields)
    (h : Apart p q) : getAtPath p (setAtPath q v fs) = getAtPath p fs := by
  induction q generalizing p fs with
  | nil => exact absurd List.nil_prefix h.2
  | cons b q ih =>
    cases p with
    | nil => exact absurd List.nil_prefix h.1
    | cons a p =>
      by_cases hab : b = a
      · subst hab
        have hap : Apart p q := by
          constructor
          · intro hp; exact h.1 ((List.prefix_cons_inj b).mpr hp)
          · intro hp; exact h.2 ((List.prefix_cons_inj b).mpr hp)
        cases q with
        | nil => exact absurd List.nil_prefix hap.2
        | cons l q =>
          cases p with
          | nil => exact absurd List.nil_prefix hap.1
          | cons c p =>
            rw [setAtPath_cons_cons, getAtPath_cons_cons, getAtPath_cons_cons,
              subMap_setField_self]
            exact ih (c :: p) _ hap
      · have hfield : getField a (setAtPath (b :: q) v fs) = getField a fs :=
          getField_setAtPath_head_ne a b q v fs hab
        cases p with
        | nil => simpa [getAtPath] using hfield
        | cons c p =>
          rw [getAtPath_cons_cons, getAtPath_cons_cons, subMap_congr a _ _ hfield]

theorem getAtPath_applyLeaves_apart (p : List String) (fpvs : List (List String × Value))
    (h : ∀ q w, (q, w) ∈ fpvs → Apart p q) (fs : Fields) :
    getAtPath p (applyLeaves fpvs fs) = getAtPath p fs := by
  induction fpvs generalizing fs with
  | nil => rfl
  | cons a fpvs ih =>
    obtain ⟨q, w⟩ := a
    have : applyLeaves ((q, w) :: fpvs) fs = applyLeaves fpvs (setAtPath q w fs) := rfl
    rw [this, ih (fun q w hm => h q w (List.mem_cons_of_mem _ hm)),
      getAtPath_setAtPath_apart p q w fs (h q w (List.mem_cons_self _ _))]

theorem getAtPath_applyLeaves_mem (fpvs : List (List String × Value))
    (hne : ∀ q w, (q, w) ∈ fpvs → q ≠ [])
    (hpw : fpvs.Pairwise (fun a b => Apart a.1 b.1))
    (p : List String) (w : Value) (hmem : (p, w) ∈ fpvs) (fs : Fields) :
    getAtPath p (applyLeaves fpvs fs) = some w := by
  induction fpvs generalizing fs with
  | nil => cases hmem
  | cons a fpvs ih =>
    obtain ⟨q, u⟩ := a
    have hstep : applyLeaves ((q, u) :: fpvs) fs = applyLeaves fpvs (setAtPath q u fs) := rfl
    rw [hstep]
    have hpw1 := List.pairwise_cons.mp hpw
    rcases List.mem_cons.mp hmem with heq | hmem1
    · cases heq
      rw [getAtPath_applyLeaves_apart p fpvs (fun q w hm => hpw1.1 (q, w) hm)]
      exact getAtPath_setAtPath_self p (hne p w (List.mem_cons_self _ _)) w fs
    · exact ih (fun q w hm => hne q w (List.mem_cons_of_mem _ hm)) hpw1.2 hmem1 _

theorem apart_of_heads_ne (pre : List String) (k l : String) (r1 r2 : List String)
    (h : k ≠ l) : Apart (pre ++ k :: r1) (pre ++ l :: r2) := by
  constructor
  · intro hp
    have := (List.prefix_append_right_inj pre).mp hp
    exact h (List.cons_prefix_cons.mp this).1
  · intro hp
    have := (List.prefix_append_right_inj pre).mp hp
    exact h (List.cons_prefix_cons.mp this).1.symm

mutual
theorem fpvsFromData_pairwise : ∀ (v : Value) (pre : List String),
    Value.distinctKeys v = true →
      (fpvsFromData pre v).Pairwise (fun a b => Apart a.1 b.1)
  | .null, pre, _ => by simp [fpvsFromData]
  | .bool _, pre, _ => by simp [fpvsFromData]
  | .int _, pre, _ => by simp [fpvsFromData]
  | .double _, pre, _ => by simp [fpvsFromData]
  | .str _, pre, _ => by simp [fpvsFromData]
  | .array _, pre, _ => by simp [fpvsFromData]
  | .map fs, pre, h => by
      simp only [fpvsFromData]
      exact fpvsFromFields_pairwise fs pre (by simpa [Value.distinctKeys] using h)
theorem fpvsFromFields_pairwise : ∀ (fs : Fields) (pre : List String),
    fieldsDistinctKeys fs = true →
      (fpvsFromFields pre fs).Pairwise (fun a b => Apart a.1 b.1)
  | [], pre, _ => by simp [fpvsFromFields]
  | (k, v) :: rest, pre, h => by
      simp only [fieldsDistinctKeys, Bool.and_eq_true, Bool.not_eq_true',
        List.any_eq_false, beq_iff_eq] at h
      obtain ⟨⟨hk, hv⟩, hrest⟩ := h
      simp only [fpvsFromFields]
      rw [List.pairwise_append]
      refine ⟨fpvsFromData_pairwise v (pre ++ [k]) hv, fpvsFromFields_pairwise rest pre hrest, ?_⟩
      intro a ha b hb
      obtain ⟨p, w⟩ := a
      obtain ⟨q, u⟩ := b
      obtain ⟨r1, hp⟩ := fpvsFromData_path v (pre ++ [k]) p w ha
      obtain ⟨l, r2, hl, hq⟩ := fpvsFromFields_path rest pre q u hb
      have hkl : k ≠ l := by
        rintro rfl
        obtain ⟨kv, hkv, hfst⟩ := List.mem_map.mp hl
        exact hk kv hkv hfst
      have hp1 : p = pre ++ k :: r1 := by simp [hp]
      simp only [hp1, hq]
      exact apart_of_heads_ne pre k l r1 r2 hkl
end

theorem keysDistinct_of_fieldsDistinctKeys (m : Fields) (h : fieldsDistinctKeys m = true) :
    KeysDistinct m := by
  induction m with
  | nil => simp [KeysDistinct]
  | cons a m ih =>
    obtain ⟨k, v⟩ := a
    simp only [fieldsDistinctKeys, Bool.and_eq_true, Bool.not_eq_true',
      List.any_eq_false, beq_iff_eq] at h
    obtain ⟨⟨hk, _⟩, hrest⟩ := h
    have ih1 : (m.map Prod.fst).Nodup := ih hrest
    simp only [KeysDistinct, List.map_cons, List.nodup_cons]
    refine ⟨?_, ih1⟩
    intro hmem
    obtain ⟨kv, hkv, hfst⟩ := List.mem_map.mp hmem
    exact hk kv hkv hfst

theorem leaf_paths_ne_nil (m : Fields) (q : List String) (w : Value)
    (h : (q, w) ∈ fpvsFromFields [] m) : q ≠ [] := by
  obtain ⟨k, rest, _, hq⟩ := fpvsFromFields_path m [] q w h
  simp [hq]

theorem exists_first_match {α : Type} (p : α → Bool) (s : List α)
    (h : ∃ d ∈ s, p d = true) :
    ∃ pre d0 post, s = pre ++ d0 :: post ∧ (∀ d ∈ pre, p d = false) ∧ p d0 = true := by
  induction s with
  | nil => obtain ⟨d, hd, _⟩ := h; cases hd
  | cons a s ih =>
    by_cases ha : p a = true
    · exact ⟨[], a, s, rfl, by simp, ha⟩
    · have hs : ∃ d ∈ s, p d = true := by
        obtain ⟨d, hd, hp⟩ := h
        rcases List.mem_cons.mp hd with rfl | hd
        · exact absurd hp ha
        · exact ⟨d, hd, hp⟩
      obtain ⟨pre, d0, post, hs, hpre, h0⟩ := ih hs
      refine ⟨a :: pre, d0, post, by simp [hs], ?_, h0⟩
      intro d hd
      rcases List.mem_cons.mp hd with rfl | hd
      · simpa using ha
      · exact hpre d hd

theorem filter_first_match {α : Type} (p : α → Bool) (pre post : List α) (d0 : α)
    (hpre : ∀ d ∈ pre, p d = false) (h0 : p d0 = true) :
    (pre ++ d0 :: post).filter p = d0 :: post.filter p := by
  rw [List.filter_append, filter_eq_nil_of_none p pre hpre, List.filter_cons, h0]
  rfl

theorem map_at_ref_of_distinct (g : Doc → Doc) (pre post : Store) (d0 : Doc)
    (hrefs : RefsDistinct (pre ++ d0 :: post)) :
    (pre ++ d0 :: post).map (fun d => if d.ref = d0.ref then g d else d)
      = pre ++ g d0 :: post := by
  have hnd : (pre.map Doc.ref ++ d0.ref :: post.map Doc.ref).Nodup := by
    simpa [RefsDistinct] using hrefs
  have hpre : ∀ d ∈ pre, d.ref ≠ d0.ref := by
    intro d hd heq
    exact (List.nodup_append.mp hnd).2.2 (List.mem_map_of_mem Doc.ref hd)
      (heq ▸ List.mem_cons_self _ _)
  have hpost : ∀ d ∈ post, d.ref ≠ d0.ref := by
    intro d hd heq
    exact (List.nodup_cons.mp (List.nodup_append.mp hnd).2.1).1
      (heq ▸ List.mem_map_of_mem Doc.ref hd)
  have hid : ∀ l : Store, (∀ d ∈ l, d.ref ≠ d0.ref) →
      l.map (fun d => if d.ref = d0.ref then g d else d) = l := by
    intro l hl
    induction l with
    | nil => rfl
    | cons a l ih =>
      simp only [List.map_cons, if_neg (hl a (List.mem_cons_self _ _))]
      rw [ih (fun d hd => hl d (List.mem_cons_of_mem _ hd))]
  simp only [List.map_append, List.map_cons, hid pre hpre, hid post hpost, if_true]

/-- C3, as amended: on a collection with distinct document identifiers in
which some document has business id `i`, `UpdateEmployee i m` (for a decoded
map `m`) rewrites only the first such document `d0`, in place.  In it every
leaf of `m` (a value that is not a JSON object, at its field path) is held at
that path afterwards and the call returns `nil`; in particular every key of
`m` whose value is not a JSON object holds the value of `m`.  Every field
whose key is not in `m`, and every field path that is apart from all leaf
paths of `m`, is unchanged.  The documents before and after `d0`, other
documents of business id `i` included, are unchanged. -/
theorem updateEmployee_first_match_merge (i : Int) (m : Fields) (s : Store)
    (hrefs : RefsDistinct s) (hkeys : fieldsDistinctKeys m = true)
    (h : ∃ d ∈ s, hasBusinessID i d = true) :
    ∃ pre d0 post data1,
      s = pre ++ d0 :: post ∧
      (∀ d ∈ pre, hasBusinessID i d = false) ∧ hasBusinessID i d0 = true ∧
      (UpdateEmployee i m s).2 = pre ++ ⟨d0.ref, data1⟩ :: post ∧
      (∀ p w, (p, w) ∈ fpvsFromFields [] m →
        (UpdateEmployee i m s).1 = none ∧ getAtPath p data1 = some w) ∧
      (∀ k v, (k, v) ∈ m → (∀ gs, v ≠ .map gs) → getField k data1 = some v) ∧
      (∀ k, k ∉ m.map Prod.fst → getField k data1 = getField k d0.data) ∧
      (∀ p, (∀ q w, (q, w) ∈ fpvsFromFields [] m → Apart p q) →
        getAtPath p data1 = getAtPath p d0.data) := by
  have hkd : KeysDistinct m := keysDistinct_of_fieldsDistinctKeys m hkeys
  obtain ⟨pre, d0, post, rfl, hpre, h0⟩ := exists_first_match (hasBusinessID i) s h
  have hq : Where "id" (.int i) (pre ++ d0 :: post)
      = .ok (d0 :: post.filter (hasBusinessID i)) := by
    rw [where_id, filter_first_match _ pre post d0 hpre h0]
  have hU : UpdateEmployee i m (pre ++ d0 :: post)
      = match refSetMergeAll d0.ref m (pre ++ d0 :: post) with
        | .error err => (some err, pre ++ d0 :: post)
        | .ok s1 => (none, s1) := by
    unfold UpdateEmployee
    rw [hq, copyMap_of_distinct m hkd]
  by_cases hm : m = []
  · subst hm
    refine ⟨pre, d0, post, d0.data, rfl, hpre, h0, ?_, ?_, ?_, ?_, ?_⟩
    · rw [hU]; simp [refSetMergeAll]
    · intro p w hmem; simp [fpvsFromFields] at hmem
    · intro k v hmem; cases hmem
    · intro k _; rfl
    · intro p _; rfl
  · cases hl : fpvsFromFields [] m with
    | nil =>
      refine ⟨pre, d0, post, d0.data, rfl, hpre, h0, ?_, ?_, ?_, ?_, ?_⟩
      · rw [hU]; simp [refSetMergeAll, hm, hl]
      · intro p w hmem; cases hmem
      · intro k v hmem hleaf
        exact absurd hl (fpvsFromFields_ne_nil_of_leaf k v m hmem hleaf)
      · intro k _; rfl
      · intro p _; rfl
    | cons a l =>
      have hS : refSetMergeAll d0.ref m (pre ++ d0 :: post)
          = .ok (pre ++ ⟨d0.ref, applyLeaves (fpvsFromFields [] m) d0.data⟩ :: post) := by
        unfold refSetMergeAll
        rw [if_neg hm, hl]
        simp only
        rw [map_at_ref_of_distinct
          (fun d => { d with data := applyLeaves (a :: l) d.data }) pre post d0 hrefs]
      rw [← hl]
      refine ⟨pre, d0, post, applyLeaves (fpvsFromFields [] m) d0.data, rfl, hpre, h0,
        ?_, ?_, ?_, ?_, ?_⟩
      · rw [hU, hS]
      · intro p w hmem
        refine ⟨by rw [hU, hS], ?_⟩
        exact getAtPath_applyLeaves_mem _ (leaf_paths_ne_nil m)
          (fpvsFromFields_pairwise m [] hkeys) p w hmem _
      · intro k v hmem hleaf
        exact getField_applyLeaves_of_leaf k v m _ hkd hmem hleaf
      · intro k hk
        exact getField_applyLeaves_of_not_key k m _ hk
      · intro p hp
        exact getAtPath_applyLeaves_apart p _ hp _

/-- C3 at a concrete input: the body `{"role": "Manager"}` for business id 2
on the collection of A's and B's documents. -/
theorem updateEmployee_first_match_merge_witness :
    (∃ pre d0 post data1,
      [docA, docB] = pre ++ d0 :: post ∧
      (∀ d ∈ pre, hasBusinessID 2 d = false) ∧ hasBusinessID 2 d0 = true ∧
      (UpdateEmployee 2 bodyRole [docA, docB]).2 = pre ++ ⟨d0.ref, data1⟩ :: post ∧
      (∀ p w, (p, w) ∈ fpvsFromFields [] bodyRole →
        (UpdateEmployee 2 bodyRole [docA, docB]).1 = none ∧ getAtPath p data1 = some w) ∧
      (∀ k v, (k, v) ∈ bodyRole → (∀ gs, v ≠ .map gs) → getField k data1 = some v) ∧
      (∀ k, k ∉ bodyRole.map Prod.fst → getField k data1 = getField k d0.data) ∧
      (∀ p, (∀ q w, (q, w) ∈ fpvsFromFields [] bodyRole → Apart p q) →
        getAtPath p data1 = getAtPath p d0.data)) ∧
    UpdateEmployee 2 bodyRole [docA, docB] =
      (none, [docA, ⟨"doc2",
        toFields { employeeB with Password := "$2a$10$secretB", Role := "Manager" }⟩]) :=
  ⟨updateEmployee_first_match_merge 2 bodyRole [docA, docB] (by decide) (by decide)
    ⟨docB, by decide, by decide⟩, by decide⟩

/-- C3 as stated fails when a value of the map is a JSON object: the stored
document has business id 1 and the field `address = {"city": "Oslo"}`; after
`UpdateEmployee 1 {"address": {"zip": "0150"}}` the field `address` holds
`{"city": "Oslo", "zip": "0150"}`, which is not the value the map gives for
that key. -/
theorem updateEmployee_object_value_not_stored_as_given :
    RefsDistinct [docAddress] ∧ fieldsDistinctKeys bodyZip = true ∧
    hasBusinessID 1 docAddress = true ∧
    UpdateEmployee 1 bodyZip [docAddress] =
      (none, [⟨"doc1", toFields { employeeA with Password := "$2a$10$secretA" } ++
        [("address", .map [("city", .str "Oslo"), ("zip", .str "0150")])]⟩]) ∧
    getField "address" bodyZip = some (.map [("zip", .str "0150")]) ∧
    (UpdateEmployee 1 bodyZip [docAddress]).2.map (fun d => getField "address" d.data) ≠
      [getField "address" bodyZip] := by
  decide


/-- C4: on a collection with no document of business id `i`, `UpdateEmployee
i m` returns `nil` and the collection is exactly the one it was given; the
PATCH handler, called with a path id that reads as `i` and a body that decodes
to `m`, then answers 200 with the text "Employee updated successfully". -/
theorem updateEmployee_no_match_is_noop (i : Int) (m : Fields) (s : Store)
    (employeeIDStr : String) (hid : Atoi employeeIDStr = some i)
    (h : ∀ d ∈ s, hasBusinessID i d = false) :
    UpdateEmployee i m s = (none, s) ∧
    UpdateEmployeeHandler (some employeeIDStr) (some m) s =
      (⟨200, .text "Employee updated successfully"⟩, s) := by
  have hU : UpdateEmployee i m s = (none, s) := by
    unfold UpdateEmployee
    rw [where_id, filter_eq_nil_of_none _ _ h]
  refine ⟨hU, ?_⟩
  unfold UpdateEmployeeHandler
  simp only [hid, hU]

/-- C4 at a concrete input: a PATCH for business id 3 on the collection of
A's and B's documents. -/
theorem updateEmployee_no_match_is_noop_witness :
    UpdateEmployee 3 bodyRole [docA, docB] = (none, [docA, docB]) ∧
    UpdateEmployeeHandler (some "3") (some bodyRole) [docA, docB] =
      (⟨200, .text "Employee updated successfully"⟩, [docA, docB]) :=
  updateEmployee_no_match_is_noop 3 bodyRole [docA, docB] "3" (by decide) (by decide)

/-! ## Lemmas on the delete loops -/

theorem countLoop_eq (docs : List Doc) (n : Nat) : countLoop docs n = n + docs.length := by
  induction docs generalizing n with
  | nil => rfl
  | cons a docs ih => simp only [countLoop, ih, List.length_cons]; omega

theorem deleteLoop_eq (docs : List Doc) (s : Store) :
    deleteLoop docs s = s.filter (fun d => decide (d.ref ∉ docs.map Doc.ref)) := by
  induction docs generalizing s with
  | nil => simp [deleteLoop]
  | cons a docs ih =>
    simp only [deleteLoop, ih, refDelete, List.filter_filter]
    apply List.filter_congr
    intro d _
    by_cases h1 : d.ref = a.ref <;> by_cases h2 : d.ref ∈ docs.map Doc.ref <;> simp [h1, h2]

theorem ref_mem_filter_iff (p : Doc → Bool) (s : Store) (hrefs : RefsDistinct s)
    (d : Doc) (hd : d ∈ s) :
    d.ref ∈ (s.filter p).map Doc.ref ↔ p d = true := by
  constructor
  · intro h
    obtain ⟨x, hx, hxd⟩ := List.mem_map.mp h
    have hxs := (List.mem_filter.mp hx).1
    have : x = d := List.inj_on_of_nodup_map hrefs hxs hd hxd
    exact this ▸ (List.mem_filter.mp hx).2
  · intro h
    exact List.mem_map_of_mem Doc.ref (List.mem_filter.mpr ⟨hd, h⟩)

/-- C5: on a collection with distinct document identifiers, `DeleteEmployee`
equals the reference `deleteReference`: the no-document error and the
collection as it was when no document has business id `i`; otherwise `nil`
and the collection without any of the documents of business id `i`, the other
documents kept as they were and in their order. -/
theorem deleteEmployee_eq_reference (i : Int) (s : Store) (hrefs : RefsDistinct s) :
    DeleteEmployee i s = deleteReference i s := by
  unfold DeleteEmployee deleteReference
  simp only [where_id, countLoop_eq, Nat.zero_add]
  by_cases hnone : ∀ d ∈ s, hasBusinessID i d = false
  · have hall : s.all (fun d => !hasBusinessID i d) = true := by
      rw [List.all_eq_true]
      intro d hd
      simp [hnone d hd]
    rw [filter_eq_nil_of_none _ _ hnone, hall]
    simp
  · have hall : ¬ s.all (fun d => !hasBusinessID i d) = true := by
      rw [List.all_eq_true]
      intro hcon
      apply hnone
      intro d hd
      simpa using hcon d hd
    have hlen : (s.filter (hasBusinessID i)).length ≠ 0 := by
      intro h0
      apply hnone
      intro d hd
      have hnil := List.length_eq_zero.mp h0
      by_contra hne
      have hmem : d ∈ s.filter (hasBusinessID i) :=
        List.mem_filter.mpr ⟨hd, by simpa using hne⟩
      rw [hnil] at hmem
      cases hmem
    rw [if_neg hlen, if_neg hall, deleteLoop_eq]
    congr 1
    apply List.filter_congr
    intro d hd
    have := ref_mem_filter_iff (hasBusinessID i) s hrefs d hd
    by_cases hp : hasBusinessID i d = true
    · simp [hp, this.mpr hp]
    · have hn : d.ref ∉ (s.filter (hasBusinessID i)).map Doc.ref := fun hm => hp (this.mp hm)
      simp only [Bool.not_eq_true] at hp
      simp [hp, hn]

/-- C5 at a concrete input: two documents share business id 42 and both are
removed, A's document stays. -/
theorem deleteEmployee_eq_reference_witness :
    DeleteEmployee 42 [doc42a, docA, doc42b] = deleteReference 42 [doc42a, docA, doc42b] ∧
    deleteReference 42 [doc42a, docA, doc42b] = (none, [docA]) :=
  ⟨deleteEmployee_eq_reference 42 [doc42a, docA, doc42b] (by decide), by decide⟩


/-! ## Lemmas on the read loops -/

theorem appendLoop_ok (docs : List Doc) (employees : List Employee)
    (h : ∀ d ∈ docs, ∃ e, DataTo d.data = .ok e) :
    appendLoop docs employees = .ok (employees ++ docs.filterMap decoded) := by
  induction docs generalizing employees with
  | nil => simp [appendLoop]
  | cons a docs ih =>
    obtain ⟨e, he⟩ := h a (List.mem_cons_self _ _)
    simp only [appendLoop, he]
    rw [ih _ (fun d hd => h d (List.mem_cons_of_mem _ hd))]
    simp [decoded, he, Except.toOption]

theorem map_ok_filterMap_decoded (docs : List Doc)
    (h : ∀ d ∈ docs, ∃ e, DataTo d.data = .ok e) :
    (docs.filterMap decoded).map Except.ok = docs.map (fun d => DataTo d.data) := by
  induction docs with
  | nil => rfl
  | cons a docs ih =>
    obtain ⟨e, he⟩ := h a (List.mem_cons_self _ _)
    have ih1 := ih (fun d hd => h d (List.mem_cons_of_mem _ hd))
    simp [decoded, he, Except.toOption, ih1]

theorem where_str (key value : String) (s : Store)
    (h : parseDotSeparatedString key ≠ none) :
    Where key (.str value) s = .ok (s.filter (fieldEquals key value)) := by
  unfold Where
  cases hp : parseDotSeparatedString key with
  | none => exact absurd hp h
  | some fp =>
    simp only
    congr 1
    apply List.filter_congr
    intro d _
    simp [fieldEquals, hp]

theorem searchLoop_ok (s : Store) (p : List (String × String)) (employees : List Employee)
    (hkeys : ∀ kv ∈ p, parseDotSeparatedString kv.1 ≠ none)
    (hdocs : ∀ kv ∈ p, ∀ d ∈ s, fieldEquals kv.1 kv.2 d = true → ∃ e, DataTo d.data = .ok e) :
    searchLoop s p employees
      = .ok (employees ++ p.flatMap (fun kv => (s.filter (fieldEquals kv.1 kv.2)).filterMap decoded)) := by
  induction p generalizing employees with
  | nil => simp [searchLoop]
  | cons kv p ih =>
    obtain ⟨key, value⟩ := kv
    have hk := hkeys (key, value) (List.mem_cons_self _ _)
    have hd : ∀ d ∈ s.filter (fieldEquals key value), ∃ e, DataTo d.data = .ok e := by
      intro d hd
      have := List.mem_filter.mp hd
      exact hdocs (key, value) (List.mem_cons_self _ _) d this.1 this.2
    simp only [searchLoop, where_str key value s hk, appendLoop_ok _ _ hd]
    rw [ih _ (fun kv h => hkeys kv (List.mem_cons_of_mem _ h))
      (fun kv h => hdocs kv (List.mem_cons_of_mem _ h))]
    simp

/-- C6, as amended: when every key of the parameter map is a field path the
store client accepts and every document selected by some parameter converts to
an `Employee`, `SearchEmployee` succeeds and its result is the concatenation,
over the parameters in the order visited, of the documents whose field `k`
equals `p[k]`, each converted: a document occurs once per parameter it
matches, nothing is deduplicated or intersected.  Visiting the parameters in
another order gives a permutation of the same result. -/
theorem searchEmployee_concatenates (p : List (String × String)) (s : Store)
    (hkeys : ∀ kv ∈ p, parseDotSeparatedString kv.1 ≠ none)
    (hdocs : ∀ kv ∈ p, ∀ d ∈ s, fieldEquals kv.1 kv.2 d = true → ∃ e, DataTo d.data = .ok e) :
    ∃ es, SearchEmployee p s = .ok es ∧
      es.map Except.ok
        = p.flatMap (fun kv => (s.filter (fieldEquals kv.1 kv.2)).map (fun d => DataTo d.data)) ∧
      ∀ q, q.Perm p → ∃ es1, SearchEmployee q s = .ok es1 ∧ es1.Perm es := by
  refine ⟨p.flatMap (fun kv => (s.filter (fieldEquals kv.1 kv.2)).filterMap decoded), ?_, ?_, ?_⟩
  · unfold SearchEmployee
    rw [searchLoop_ok s p [] hkeys hdocs]
    simp
  · induction p with
    | nil => rfl
    | cons kv p ih =>
      have hd : ∀ d ∈ s.filter (fieldEquals kv.1 kv.2), ∃ e, DataTo d.data = .ok e := by
        intro d hd
        have := List.mem_filter.mp hd
        exact hdocs kv (List.mem_cons_self _ _) d this.1 this.2
      simp only [List.flatMap_cons, List.map_append, map_ok_filterMap_decoded _ hd]
      rw [ih (fun kv h => hkeys kv (List.mem_cons_of_mem _ h))
        (fun kv h => hdocs kv (List.mem_cons_of_mem _ h))]
  · intro q hq
    refine ⟨q.flatMap (fun kv => (s.filter (fieldEquals kv.1 kv.2)).filterMap decoded), ?_, ?_⟩
    · unfold SearchEmployee
      rw [searchLoop_ok s q [] (fun kv h => hkeys kv (hq.subset h))
        (fun kv h => hdocs kv (hq.subset h))]
      simp
    · exact hq.flatMap_right _

/-- C6 at the input the claim names: A and B both have role `Eng`, only A has
first name `A`; the parameters `role=Eng` and `firstName=A` give A, B, A. -/
theorem searchEmployee_concatenates_witness :
    (∃ es, SearchEmployee [("role", "Eng"), ("firstName", "A")] [docA, docB] = .ok es ∧
      es.map Except.ok
        = [("role", "Eng"), ("firstName", "A")].flatMap
            (fun kv => ([docA, docB].filter (fieldEquals kv.1 kv.2)).map
              (fun d => DataTo d.data)) ∧
      ∀ q, q.Perm [("role", "Eng"), ("firstName", "A")] →
        ∃ es1, SearchEmployee q [docA, docB] = .ok es1 ∧ es1.Perm es) ∧
    SearchEmployee [("role", "Eng"), ("firstName", "A")] [docA, docB] =
      .ok [{ employeeA with Password := "$2a$10$secretA" },
           { employeeB with Password := "$2a$10$secretB" },
           { employeeA with Password := "$2a$10$secretA" }] :=
  ⟨searchEmployee_concatenates [("role", "Eng"), ("firstName", "A")] [docA, docB]
    (by decide)
    (by
      intro kv _ d hd _
      rcases List.mem_cons.mp hd with rfl | hd
      · exact ⟨{ employeeA with Password := "$2a$10$secretA" }, by decide⟩
      · rcases List.mem_cons.mp hd with rfl | hd
        · exact ⟨{ employeeB with Password := "$2a$10$secretB" }, by decide⟩
        · cases hd),
    by decide⟩

/-- C6 as stated fails on a collection with a document that does not convert:
the document has `role = "Eng"`, so the parameter `role=Eng` selects it, and
its `salary` is the string `"high"`; `SearchEmployee` returns the conversion
error and no result.  It also fails for a parameter whose key is not a field
path the client accepts (`tags[]`): the cursor's first `Next` returns the
client's error, on any collection. -/
theorem searchEmployee_returns_error :
    (parseDotSeparatedString "role" = some ["role"] ∧
      fieldEquals "role" "Eng" docSalaryText = true ∧
      DataTo docSalaryText.data = .error .conversion ∧
      SearchEmployee [("role", "Eng")] [docSalaryText] = .error .conversion) ∧
    (parseDotSeparatedString "tags[]" = none ∧
      SearchEmployee [("tags[]", "x")] [docA, docB] = .error .store) := by
  decide

theorem intFrom_error (v : Option Value) (err : Error) (h : intFrom v = .error err) :
    err = .conversion := by
  unfold intFrom at h
  repeat' split at h
  all_goals (cases h; try rfl)

theorem stringFrom_error (v : Option Value) (err : Error) (h : stringFrom v = .error err) :
    err = .conversion := by
  unfold stringFrom at h
  repeat' split at h
  all_goals (cases h; try rfl)

theorem floatFrom_error (v : Option Value) (err : Error) (h : floatFrom v = .error err) :
    err = .conversion := by
  unfold floatFrom at h
  repeat' split at h
  all_goals (cases h; try rfl)

theorem dataTo_error (fs : Fields) (err : Error) (h : DataTo fs = .error err) :
    err = .conversion := by
  unfold DataTo at h
  simp only [bind, Except.bind, pure, Except.pure] at h
  repeat' split at h
  all_goals cases h
  all_goals first
    | exact intFrom_error _ _ (by assumption)
    | exact stringFrom_error _ _ (by assumption)
    | exact floatFrom_error _ _ (by assumption)

theorem filter_head_eq_find {α : Type} (p : α → Bool) (s : List α) :
    (s.filter p).head? = s.find? p := by
  induction s with
  | nil => rfl
  | cons a s ih =>
    by_cases ha : p a = true
    · simp [List.filter_cons, List.find?_cons, ha]
    · simp only [Bool.not_eq_true] at ha
      simp [List.filter_cons, List.find?_cons, ha, ih]

/-- C7: `GetEmployeeByID i` returns the conversion of the first document, in
cursor order, whose business id is `i` when there is one, and the not-found
error when there is none; it returns the not-found error exactly when no
document has business id `i`; and whenever it returns an error, the handler of
`GET /employee/{id}` answers 404. -/
theorem getEmployeeByID_first_match (i : Int) (s : Store) :
    (GetEmployeeByID i s =
      match s.find? (hasBusinessID i) with
      | some d => DataTo d.data
      | none => .error (.notFound i)) ∧
    (GetEmployeeByID i s = .error (.notFound i) ↔ ∀ d ∈ s, hasBusinessID i d = false) ∧
    (∀ employeeIDStr err, Atoi employeeIDStr = some i → GetEmployeeByID i s = .error err →
      GetEmployeeByIDHandler (some employeeIDStr) s = httpError "Employee not found" 404) := by
  have hG : GetEmployeeByID i s =
      match s.find? (hasBusinessID i) with
      | some d => DataTo d.data
      | none => .error (.notFound i) := by
    unfold GetEmployeeByID
    rw [where_id, ← filter_head_eq_find]
    cases hf : s.filter (hasBusinessID i) with
    | nil => rfl
    | cons d l =>
      simp only [List.head?_cons]
      cases DataTo d.data <;> rfl
  refine ⟨hG, ?_, ?_⟩
  · rw [hG]
    constructor
    · intro h
      cases hf : s.find? (hasBusinessID i) with
      | none =>
        intro d hd
        have := List.find?_eq_none.mp hf d hd
        simpa using this
      | some d =>
        rw [hf] at h
        simp only at h
        have := dataTo_error _ _ h
        cases this
    · intro h
      have : s.find? (hasBusinessID i) = none := by
        rw [List.find?_eq_none]
        intro d hd
        simp [h d hd]
      rw [this]
  · intro employeeIDStr err hid herr
    unfold GetEmployeeByIDHandler
    simp only [hid, herr]

/-- C7 at concrete inputs: with two documents of business id 42 the first one
in cursor order is returned; for business id 9, which no document has, the
not-found error is returned and the handler answers 404. -/
theorem getEmployeeByID_first_match_witness :
    GetEmployeeByID 42 [docA, doc42a, doc42b] = .ok { employeeA with ID := 42 } ∧
    GetEmployeeByID 9 [docA, doc42a, doc42b] = .error (.notFound 9) ∧
    GetEmployeeByIDHandler (some "9") [docA, doc42a, doc42b] =
      httpError "Employee not found" 404 :=
  ⟨((getEmployeeByID_first_match 42 [docA, doc42a, doc42b]).1).trans (by decide),
   (getEmployeeByID_first_match 9 [docA, doc42a, doc42b]).2.1.mpr (by decide),
   (getEmployeeByID_first_match 9 [docA, doc42a, doc42b]).2.2 "9" (.notFound 9) (by decide)
     (by decide)⟩


theorem getAllLoop_ok (docs : List Doc) (employees : List Employee)
    (h : ∀ d ∈ docs, ∃ e, DataTo d.data = .ok e) :
    getAllLoop docs employees = .ok (employees ++ docs.filterMap decoded) := by
  induction docs generalizing employees with
  | nil => simp [getAllLoop]
  | cons a docs ih =>
    obtain ⟨e, he⟩ := h a (List.mem_cons_self _ _)
    simp only [getAllLoop, he]
    rw [ih _ (fun d hd => h d (List.mem_cons_of_mem _ hd))]
    simp [decoded, he, Except.toOption]

/-- C8: on a collection whose documents all convert to an `Employee` (in
particular a non-empty one), `GetAllEmployees` succeeds and returns the
conversions of the documents, one per document and in cursor order: as a
multiset the result is exactly the collection's documents converted, none
omitted and none duplicated. -/
theorem getAllEmployees_returns_every_document (s : Store)
    (hwf : ∀ d ∈ s, ∃ e, DataTo d.data = .ok e) :
    ∃ es, GetAllEmployees s = .ok es ∧
      es.map Except.ok = s.map (fun d => DataTo d.data) ∧
      es.length = s.length ∧
      (Multiset.ofList es).map Except.ok
        = (Multiset.ofList s).map (fun d => DataTo d.data) := by
  have hmap := map_ok_filterMap_decoded s hwf
  refine ⟨s.filterMap decoded, ?_, hmap, ?_, ?_⟩
  · unfold GetAllEmployees
    rw [getAllLoop_ok s [] hwf]
    simp
  · have := congrArg List.length hmap
    simpa using this
  · simp only [Multiset.map_coe, hmap]

/-- C8 at a concrete input: the collection of A's and B's documents. -/
theorem getAllEmployees_returns_every_document_witness :
    (∃ es, GetAllEmployees [docA, docB] = .ok es ∧
      es.map Except.ok = [docA, docB].map (fun d => DataTo d.data) ∧
      es.length = [docA, docB].length ∧
      (Multiset.ofList es).map Except.ok
        = (Multiset.ofList [docA, docB]).map (fun d => DataTo d.data)) ∧
    GetAllEmployees [docA, docB] =
      .ok [{ employeeA with Password := "$2a$10$secretA" },
           { employeeB with Password := "$2a$10$secretB" }] :=
  ⟨getAllEmployees_returns_every_document [docA, docB] (by
      intro d hd
      rcases List.mem_cons.mp hd with rfl | hd
      · exact ⟨{ employeeA with Password := "$2a$10$secretA" }, by decide⟩
      · rcases List.mem_cons.mp hd with rfl | hd
        · exact ⟨{ employeeB with Password := "$2a$10$secretB" }, by decide⟩
        · cases hd),
    by decide⟩

/-- C9, evaluated: the `json` names of the struct fields are `id, firstName,
LastName, email, password, phoneNo, role, salary`.  The tag of `LastName` is
spelled `josn`, so `encoding/json` finds no `json` key in it and uses the Go
field name; the object `GetEmployeeByIDHandler` writes for employee A has the
member `LastName` and no member `lastName`. -/
theorem marshal_writes_LastName :
    EmployeeFields.map (encodedName "json") =
      ["id", "firstName", "LastName", "email", "password", "phoneNo", "role", "salary"] ∧
    EmployeeFields.map (encodedName "firestore") =
      ["id", "firstName", "lastName", "email", "password", "phoneNo", "role", "salary"] ∧
    GetEmployeeByIDHandler (some "1") [docA] =
      ⟨200, .json [("id", .int 1), ("firstName", .str "A"), ("LastName", .str "Archer"),
        ("email", .str "a@example.com"), ("password", .str "$2a$10$secretA"),
        ("phoneNo", .int 5550101), ("role", .str "Eng"), ("salary", .double salary100k)]⟩ := by
  decide


/-- C10, evaluated: starting from the empty collection, a create request for
employee A followed by `PATCH /employee/1` with the body
`{"password": "hunter2"}` leaves A's document with the password field
`"hunter2"`, the plaintext of the request body: `UpdateEmployeeHandler` passes
the decoded map to `UpdateEmployee` as it is, without the hashing step that
`AddEmployeeHandler` applies. -/
theorem patch_stores_password_as_given (generateFromPassword : Bcrypt) (salt : Nat)
    (hashed : String) (hhash : generateFromPassword salt employeeA.Password = some hashed) :
    serveAll generateFromPassword []
        [.create (some employeeA) salt "doc1" 0, .update (some "1") (some bodyPassword)]
      = [⟨"doc1", toFields { employeeA with Password := "hunter2" }⟩] ∧
    getField "password" bodyPassword = some (.str "hunter2") := by
  refine ⟨?_, by decide⟩
  have h1 : serve generateFromPassword [] (.create (some employeeA) salt "doc1" 0)
      = [⟨"doc1", toFields { employeeA with Password := hashed }⟩] := by
    simp only [serve, AddEmployeeHandler, hhash]
    rfl
  simp only [serveAll, List.foldl_cons, List.foldl_nil, h1]
  rfl

theorem sampleHash_ne_hunter2 (salt : Nat) (pw : String) :
    sampleHash salt pw ≠ some "hunter2" := by
  unfold sampleHash
  intro h
  have h1 := congrArg String.data (Option.some.inj h)
  rw [String.data_append] at h1
  have h2 := congrArg List.head? h1
  simp at h2

/-- C10 evaluated with the stand-in hash: the stored password after the run
is `"hunter2"`, which no call of that hash returns, so the collection reached
does not satisfy `PasswordsHashed`. -/
theorem patch_stores_password_as_given_witness :
    (serveAll sampleHash []
        [.create (some employeeA) 7 "doc1" 0, .update (some "1") (some bodyPassword)]
      = [⟨"doc1", toFields { employeeA with Password := "hunter2" }⟩] ∧
      getField "password" bodyPassword = some (.str "hunter2")) ∧
    ¬ PasswordsHashed sampleHash
      (serveAll sampleHash []
        [.create (some employeeA) 7 "doc1" 0, .update (some "1") (some bodyPassword)]) := by
  refine ⟨patch_stores_password_as_given sampleHash 7 "$2a$10$secretA" rfl, ?_⟩
  intro hP
  obtain ⟨salt, pw, h, hh, hf⟩ :=
    hP ⟨"doc1", toFields { employeeA with Password := "hunter2" }⟩ (by decide)
  have hf2 : getField "password" (toFields { employeeA with Password := "hunter2" })
      = some (.str "hunter2") := by decide
  rw [hf2] at hf
  cases hf
  exact sampleHash_ne_hunter2 salt pw hh

/-! ## Further properties of the store access layer -/

/-- Function `EmployeeExists` answers `true` exactly when some document has the business
id, and returns no error. -/
theorem employeeExists_eq_any (i : Int) (s : Store) :
    EmployeeExists i s = .ok (s.any (hasBusinessID i)) := by
  by_cases h : ∃ d ∈ s, hasBusinessID i d = true
  · rw [employeeExists_true i s h]
    obtain ⟨d, hd, hi⟩ := h
    have : s.any (hasBusinessID i) = true := List.any_eq_true.mpr ⟨d, hd, hi⟩
    rw [this]
  · have hnone : ∀ d ∈ s, hasBusinessID i d = false := by
      intro d hd
      by_contra hne
      exact h ⟨d, hd, by simpa using hne⟩
    rw [employeeExists_false i s hnone]
    have : s.any (hasBusinessID i) = false := by
      rw [List.any_eq_false]
      intro d hd
      simp [hnone d hd]
    rw [this]

theorem getAllLoop_error (docs : List Doc) (employees : List Employee)
    (h : ∃ d ∈ docs, ∃ err, DataTo d.data = .error err) :
    ∃ err, getAllLoop docs employees = .error err := by
  induction docs generalizing employees with
  | nil => obtain ⟨d, hd, _⟩ := h; cases hd
  | cons a docs ih =>
    cases ha : DataTo a.data with
    | error err => exact ⟨err, by simp [getAllLoop, ha]⟩
    | ok e =>
      have : ∃ d ∈ docs, ∃ err, DataTo d.data = .error err := by
        obtain ⟨d, hd, err, herr⟩ := h
        rcases List.mem_cons.mp hd with rfl | hd
        · rw [ha] at herr; cases herr
        · exact ⟨d, hd, err, herr⟩
      obtain ⟨err, herr⟩ := ih (employees ++ [e]) this
      exact ⟨err, by simp [getAllLoop, ha, herr]⟩

/-- Function `GetAllEmployees` fails as a whole when one document does not convert:
the document is not skipped and nothing is returned. -/
theorem getAllEmployees_fails_on_unconvertible_document (s : Store)
    (h : ∃ d ∈ s, ∃ err, DataTo d.data = .error err) :
    ∃ err, GetAllEmployees s = .error err :=
  getAllLoop_error s [] h

/-- The statement above at a concrete input: B's document next to a document
whose salary is a string. -/
theorem getAllEmployees_fails_on_unconvertible_document_witness :
    (∃ err, GetAllEmployees [docB, docSalaryText] = .error err) ∧
    GetAllEmployees [docB, docSalaryText] = .error .conversion :=
  ⟨getAllEmployees_fails_on_unconvertible_document [docB, docSalaryText]
    ⟨docSalaryText, by decide, .conversion, by decide⟩, by decide⟩

theorem passwordsHashed_updateEmployee (generateFromPassword : Bcrypt) (i : Int)
    (m : Fields) (s : Store) (hs : PasswordsHashed generateFromPassword s)
    (hkeys : KeysDistinct m) (hpw : "password" ∉ m.map Prod.fst) :
    PasswordsHashed generateFromPassword (UpdateEmployee i m s).2 := by
  unfold UpdateEmployee
  rw [where_id, copyMap_of_distinct m hkeys]
  cases s.filter (hasBusinessID i) with
  | nil => exact hs
  | cons d0 rest =>
    simp only
    unfold refSetMergeAll
    by_cases hm : m = []
    · simp only [hm, if_true]
      exact hs
    · rw [if_neg hm]
      cases hl : fpvsFromFields [] m with
      | nil => exact hs
      | cons a l =>
        simp only
        intro d hd
        obtain ⟨x, hx, rfl⟩ := List.mem_map.mp hd
        obtain ⟨salt, pw, h, hh, hfield⟩ := hs x hx
        refine ⟨salt, pw, h, hh, ?_⟩
        by_cases hr : x.ref = d0.ref
        · simp only [if_pos hr]
          rw [← hl, getField_applyLeaves_of_not_key "password" m _ hpw]
          exact hfield
        · simp only [if_neg hr]
          exact hfield

theorem passwordsHashed_serve (generateFromPassword : Bcrypt) (s : Store) (r : Request)
    (hs : PasswordsHashed generateFromPassword s) (hr : keepsPassword r) :
    PasswordsHashed generateFromPassword (serve generateFromPassword s r) := by
  cases r with
  | create body salt ref pos =>
    simp only [serve, AddEmployeeHandler]
    cases body with
    | none => exact hs
    | some e =>
      simp only [employeeExists_eq_any]
      cases hany : s.any (hasBusinessID e.ID) with
      | true => exact hs
      | false =>
        simp only
        cases hg : generateFromPassword salt e.Password with
        | none => exact hs
        | some hashed =>
          simp only [AddEmployee, employeeExists_eq_any, hany, collectionAdd]
          by_cases hany2 : s.any (fun d => decide (d.ref = ref)) = true
          · simp only [hany2, if_true]
            exact hs
          · simp only [hany2]
            intro d hd
            rcases List.mem_append.mp hd with hd | hd
            · exact hs d (List.mem_of_mem_take hd)
            · rcases List.mem_cons.mp hd with rfl | hd
              · exact ⟨salt, e.Password, hashed, hg, rfl⟩
              · exact hs d (List.mem_of_mem_drop hd)
  | update vars body =>
    simp only [serve, UpdateEmployeeHandler]
    cases vars with
    | none => exact hs
    | some employeeIDStr =>
      simp only
      cases Atoi employeeIDStr with
      | none => exact hs
      | some i =>
        simp only
        cases body with
        | none => exact hs
        | some m =>
          have hU := passwordsHashed_updateEmployee generateFromPassword i m s hs hr.1 hr.2
          simp only
          cases hres : UpdateEmployee i m s with
          | mk err s1 =>
            rw [hres] at hU
            cases err <;> exact hU

/-- Every stored password is a hash the hashing call returned, in every
collection reached from the empty one by create requests and by
partial-update requests whose body has no `password` key. -/
theorem passwords_hashed_without_password_updates (generateFromPassword : Bcrypt)
    (requests : List Request) (h : ∀ r ∈ requests, keepsPassword r) :
    PasswordsHashed generateFromPassword (serveAll generateFromPassword [] requests) := by
  have key : ∀ (rs : List Request) (s : Store), PasswordsHashed generateFromPassword s →
      (∀ r ∈ rs, keepsPassword r) →
      PasswordsHashed generateFromPassword (serveAll generateFromPassword s rs) := by
    intro rs
    induction rs with
    | nil => intro s hs _; exact hs
    | cons r rs ih =>
      intro s hs hr
      exact ih _ (passwordsHashed_serve generateFromPassword s r hs
        (hr r (List.mem_cons_self _ _))) (fun x hx => hr x (List.mem_cons_of_mem _ hx))
  exact key requests [] (fun d hd => by cases hd) h

/-- The statement above at a concrete run: create A, create B, then a PATCH
of B's role. -/
theorem passwords_hashed_without_password_updates_witness :
    PasswordsHashed sampleHash
      (serveAll sampleHash []
        [.create (some employeeA) 7 "doc1" 0, .create (some employeeB) 8 "doc2" 1,
         .update (some "2") (some bodyRole)]) ∧
    serveAll sampleHash []
        [.create (some employeeA) 7 "doc1" 0, .create (some employeeB) 8 "doc2" 1,
         .update (some "2") (some bodyRole)]
      = [docA, ⟨"doc2",
          toFields { employeeB with Password := "$2a$10$secretB", Role := "Manager" }⟩] :=
  ⟨passwords_hashed_without_password_updates sampleHash _ (by
      intro r hr
      simp only [List.mem_cons, List.mem_singleton, List.not_mem_nil, or_false] at hr
      rcases hr with rfl | rfl | rfl
      · trivial
      · trivial
      · exact ⟨by decide, by decide⟩),
    by decide⟩


/-! ## Business ids over runs of store calls -/

theorem hasBusinessID_eq (i : Int) (d : Doc) :
    hasBusinessID i d =
      match getField "id" d.data with
      | some v => valueEq v (.int i)
      | none => false := rfl

theorem hasBusinessID_congr (i : Int) (d e : Doc)
    (h : getField "id" d.data = getField "id" e.data) :
    hasBusinessID i d = hasBusinessID i e := by
  rw [hasBusinessID_eq, hasBusinessID_eq, h]

theorem hasBusinessID_toFields_iff (ref : String) (e : Employee) (i : Int) :
    hasBusinessID i ⟨ref, toFields e⟩ = true ↔ i = e.ID := by
  show (e.ID == i) = true ↔ i = e.ID
  rw [beq_iff_eq]
  exact eq_comm

theorem businessIDsUnique_addEmployee (ref : String) (pos : Nat) (e : Employee) (s : Store)
    (hs : BusinessIDsUnique s) : BusinessIDsUnique (AddEmployee ref pos e s).2 := by
  unfold AddEmployee
  rw [employeeExists_eq_any]
  cases hany : s.any (hasBusinessID e.ID) with
  | true => exact hs
  | false =>
    simp only [collectionAdd]
    by_cases hr : s.any (fun d => decide (d.ref = ref)) = true
    · rw [if_pos hr]
      exact hs
    · rw [if_neg hr]
      intro i
      show (List.filter (hasBusinessID i)
        (s.take pos ++ ⟨ref, toFields e⟩ :: s.drop pos)).length ≤ 1
      have hperm := (insert_perm pos (⟨ref, toFields e⟩ : Doc) s).filter (hasBusinessID i)
      rw [hperm.length_eq, List.filter_cons]
      by_cases hi : hasBusinessID i ⟨ref, toFields e⟩ = true
      · have hie : i = e.ID := (hasBusinessID_toFields_iff ref e i).mp hi
        subst hie
        have hnone : ∀ d ∈ s, hasBusinessID e.ID d = false := by
          intro d hd
          have := List.any_eq_false.mp hany d hd
          simpa using this
        simp [hi, filter_eq_nil_of_none _ _ hnone]
      · simp only [hi]
        exact hs i

theorem businessIDsUnique_updateEmployee (i : Int) (m : Fields) (s : Store)
    (hs : BusinessIDsUnique s) (hkeys : KeysDistinct m) (hid : "id" ∉ m.map Prod.fst) :
    BusinessIDsUnique (UpdateEmployee i m s).2 := by
  unfold UpdateEmployee
  rw [where_id, copyMap_of_distinct m hkeys]
  cases s.filter (hasBusinessID i) with
  | nil => exact hs
  | cons d0 rest =>
    simp only
    unfold refSetMergeAll
    by_cases hm : m = []
    · simp only [hm, if_true]
      exact hs
    · rw [if_neg hm]
      cases hl : fpvsFromFields [] m with
      | nil => exact hs
      | cons a l =>
        simp only
        intro j
        rw [List.filter_map, List.length_map]
        have hcongr : s.filter (hasBusinessID j ∘ fun d =>
              if d.ref = d0.ref then { d with data := applyLeaves (a :: l) d.data } else d)
            = s.filter (hasBusinessID j) := by
          apply List.filter_congr
          intro d _
          simp only [Function.comp]
          by_cases hr : d.ref = d0.ref
          · simp only [if_pos hr]
            apply hasBusinessID_congr
            rw [← hl]
            exact getField_applyLeaves_of_not_key "id" m _ hid
          · simp only [if_neg hr]
        rw [hcongr]
        exact hs j

theorem businessIDsUnique_deleteEmployee (i : Int) (s : Store)
    (hs : BusinessIDsUnique s) : BusinessIDsUnique (DeleteEmployee i s).2 := by
  unfold DeleteEmployee
  simp only [where_id]
  by_cases hc : countLoop (s.filter (hasBusinessID i)) 0 = 0
  · simp only [hc, if_true]
    exact hs
  · simp only [hc, if_false, deleteLoop_eq]
    intro j
    have hsub : ∀ q : Doc → Bool,
        ((s.filter q).filter (hasBusinessID j)).Sublist (s.filter (hasBusinessID j)) :=
      fun q => (List.filter_sublist s).filter (hasBusinessID j)
    exact Nat.le_trans (hsub _).length_le (hs j)

theorem businessIDsUnique_perform (s : Store) (c : Call)
    (hs : BusinessIDsUnique s) (hc : keepsID c) : BusinessIDsUnique (perform s c) := by
  cases c with
  | add ref pos employee => exact businessIDsUnique_addEmployee ref pos employee s hs
  | update employeeID updatedFields =>
    exact businessIDsUnique_updateEmployee employeeID updatedFields s hs hc.1 hc.2
  | delete employeeID => exact businessIDsUnique_deleteEmployee employeeID s hs

/-- No two documents share a business id in any collection reached from the
empty one by `AddEmployee`, `DeleteEmployee` and those `UpdateEmployee` calls
whose map has no `id` key. -/
theorem business_ids_unique_without_id_updates (calls : List Call)
    (h : ∀ c ∈ calls, keepsID c) : BusinessIDsUnique (performAll [] calls) := by
  have key : ∀ (cs : List Call) (s : Store), BusinessIDsUnique s →
      (∀ c ∈ cs, keepsID c) → BusinessIDsUnique (performAll s cs) := by
    intro cs
    induction cs with
    | nil => intro s hs _; exact hs
    | cons c cs ih =>
      intro s hs hc
      exact ih _ (businessIDsUnique_perform s c hs (hc c (List.mem_cons_self _ _)))
        (fun x hx => hc x (List.mem_cons_of_mem _ hx))
  exact key calls [] (fun i => by simp) h

/-- The statement above at a concrete run: add A, add B, add A again
(refused), update B's role, delete A. -/
theorem business_ids_unique_without_id_updates_witness :
    BusinessIDsUnique (performAll []
      [.add "doc1" 0 { employeeA with Password := "$2a$10$secretA" },
       .add "doc2" 1 { employeeB with Password := "$2a$10$secretB" },
       .add "doc3" 2 { employeeA with Password := "$2a$10$other" },
       .update 2 bodyRole, .delete 1]) ∧
    performAll []
      [.add "doc1" 0 { employeeA with Password := "$2a$10$secretA" },
       .add "doc2" 1 { employeeB with Password := "$2a$10$secretB" },
       .add "doc3" 2 { employeeA with Password := "$2a$10$other" },
       .update 2 bodyRole, .delete 1]
      = [⟨"doc2",
          toFields { employeeB with Password := "$2a$10$secretB", Role := "Manager" }⟩] :=
  ⟨business_ids_unique_without_id_updates _ (by
      intro c hc
      simp only [List.mem_cons, List.mem_singleton, List.not_mem_nil, or_false] at hc
      rcases hc with rfl | rfl | rfl | rfl | rfl
      · trivial
      · trivial
      · trivial
      · exact ⟨by decide, by decide⟩
      · trivial),
    by decide⟩

/-- C11, evaluated: from the empty collection, `AddEmployee` of A (id 1) and
`AddEmployee` of B (id 2) reach a collection without shared business ids;
`UpdateEmployee 1 {"id": 2}` then leaves two documents that both pass the
filter `id == 2`, so the collection reached does not satisfy
`BusinessIDsUnique`.  `UpdateEmployee` writes the map it is given into the
document without the existence check that `AddEmployee` makes before its
insert.  The same collection is reached through the handlers, by two create
requests and `PATCH /employee/1` with the body `{"id": 2}`. -/
theorem updateEmployee_of_id_duplicates_business_id :
    BusinessIDsUnique (performAll []
        [.add "doc1" 0 { employeeA with Password := "$2a$10$secretA" },
         .add "doc2" 1 { employeeB with Password := "$2a$10$secretB" }]) ∧
    performAll []
        [.add "doc1" 0 { employeeA with Password := "$2a$10$secretA" },
         .add "doc2" 1 { employeeB with Password := "$2a$10$secretB" },
         .update 1 bodyID]
      = [⟨"doc1", setField "id" (.double two) docA.data⟩, docB] ∧
    hasBusinessID 2 ⟨"doc1", setField "id" (.double two) docA.data⟩ = true ∧
    hasBusinessID 2 docB = true ∧
    ¬ BusinessIDsUnique (performAll []
        [.add "doc1" 0 { employeeA with Password := "$2a$10$secretA" },
         .add "doc2" 1 { employeeB with Password := "$2a$10$secretB" },
         .update 1 bodyID]) ∧
    serveAll sampleHash []
        [.create (some employeeA) 7 "doc1" 0, .create (some employeeB) 8 "doc2" 1,
         .update (some "1") (some bodyID)]
      = [⟨"doc1", setField "id" (.double two) docA.data⟩, docB] := by
  refine ⟨?_, by decide, by decide, by decide, ?_, by decide⟩
  · apply business_ids_unique_without_id_updates
    intro c hc
    simp only [List.mem_cons, List.mem_singleton, List.not_mem_nil, or_false] at hc
    rcases hc with rfl | rfl <;> trivial
  · intro h
    exact absurd (h 2) (by decide)

end EmployeeMgmt
